import Mathlib

/-! Basic byte-string machinery for the simpledb embedding. -/

/-- A byte string; each element is intended to lie below 256. -/
abbrev Bytes := List Nat

/-- Strict lexicographic (memcmp-style) order on byte strings, as used by the
underlying ordered KV store and by `compare_score_bytes` in the codec. -/
def bLt : Bytes → Bytes → Bool
  | [], [] => false
  | [], _ :: _ => true
  | _ :: _, [] => false
  | a :: s, b :: t => if a < b then true else if b < a then false else bLt s t

/-- Non-strict lexicographic order on byte strings. -/
def bLe (a b : Bytes) : Bool := !(bLt b a)

theorem bLt_irrefl (a : Bytes) : bLt a a = false := by
  induction a with
  | nil => rfl
  | cons x s ih => simp [bLt, ih]

theorem bLt_trans : ∀ {a b c : Bytes}, bLt a b = true → bLt b c = true → bLt a c = true := by
  intro a
  induction a with
  | nil =>
    intro b c hab hbc
    cases b with
    | nil => simp [bLt] at hab
    | cons y t =>
      cases c with
      | nil => simp [bLt] at hbc
      | cons z u => simp [bLt]
  | cons x s ih =>
    intro b c hab hbc
    cases b with
    | nil => simp [bLt] at hab
    | cons y t =>
      cases c with
      | nil => simp [bLt] at hbc
      | cons z u =>
        simp only [bLt] at hab hbc ⊢
        split at hab
        · rename_i hxy
          split at hbc
          · rename_i hyz
            simp [Nat.lt_trans hxy hyz]
          · split at hbc
            · exact absurd hbc (by simp)
            · rename_i h1 h2
              have hyz : y = z := Nat.le_antisymm (Nat.le_of_not_lt h2) (Nat.le_of_not_lt h1)
              simp [hyz ▸ hxy]
        · split at hab
          · exact absurd hab (by simp)
          · rename_i h1 h2
            have hxy : x = y := Nat.le_antisymm (Nat.le_of_not_lt h2) (Nat.le_of_not_lt h1)
            subst hxy
            split at hbc
            · rename_i hxz
              simp [hxz]
            · split at hbc
              · exact absurd hbc (by simp)
              · rename_i h3 h4
                have hxz : x = z := Nat.le_antisymm (Nat.le_of_not_lt h4) (Nat.le_of_not_lt h3)
                simp [hxz, ih hab hbc]

theorem bLt_total (a b : Bytes) : bLt a b = true ∨ a = b ∨ bLt b a = true := by
  induction a generalizing b with
  | nil =>
    cases b with
    | nil => exact Or.inr (Or.inl rfl)
    | cons y t => exact Or.inl (by simp [bLt])
  | cons x s ih =>
    cases b with
    | nil => exact Or.inr (Or.inr (by simp [bLt]))
    | cons y t =>
      rcases Nat.lt_trichotomy x y with h | h | h
      · exact Or.inl (by simp [bLt, h])
      · subst h
        rcases ih t with h' | h' | h'
        · exact Or.inl (by simp [bLt, h'])
        · exact Or.inr (Or.inl (by rw [h']))
        · exact Or.inr (Or.inr (by simp [bLt, h']))
      · exact Or.inr (Or.inr (by simp [bLt, h]))

theorem bLt_asymm {a b : Bytes} (h : bLt a b = true) : bLt b a = false := by
  cases hba : bLt b a with
  | false => rfl
  | true => exact absurd (bLt_trans h hba) (by simp [bLt_irrefl])

theorem bLt_of_ne_of_not_gt {a b : Bytes} (h1 : a ≠ b) (h2 : bLt b a = false) :
    bLt a b = true := by
  rcases bLt_total a b with h | h | h
  · exact h
  · exact absurd h h1
  · rw [h] at h2; cases h2

/-- Boolean chain predicate: adjacent elements are related by `r`. -/
def chainB (r : α → α → Bool) : List α → Bool
  | [] => true
  | [_] => true
  | a :: b :: t => r a b && chainB r (b :: t)

theorem chainB_cons_cons {r : α → α → Bool} {a b : α} {t : List α} :
    chainB r (a :: b :: t) = (r a b && chainB r (b :: t)) := rfl

theorem chainB_tail {r : α → α → Bool} {a : α} {t : List α}
    (h : chainB r (a :: t) = true) : chainB r t = true := by
  cases t with
  | nil => rfl
  | cons b u => exact (Bool.and_eq_true_iff.mp h).2

/-- In a transitively-chained list, the head is related to every tail element. -/
theorem chainB_head_rel {r : α → α → Bool}
    (htr : ∀ x y z, r x y = true → r y z = true → r x z = true)
    {a : α} {t : List α} (h : chainB r (a :: t) = true) :
    ∀ x ∈ t, r a x = true := by
  induction t generalizing a with
  | nil => intro x hx; cases hx
  | cons b u ih =>
    intro x hx
    have h1 : r a b = true := (Bool.and_eq_true_iff.mp h).1
    have h2 : chainB r (b :: u) = true := (Bool.and_eq_true_iff.mp h).2
    rcases List.mem_cons.mp hx with hx | hx
    · exact hx ▸ h1
    · exact htr a b x h1 (ih h2 x hx)

theorem chainB_of_sublist {r : α → α → Bool}
    (htr : ∀ x y z, r x y = true → r y z = true → r x z = true)
    {l l' : List α} (hs : l'.Sublist l) (hc : chainB r l = true) :
    chainB r l' = true := by
  induction hs with
  | slnil => rfl
  | cons a hs ih => exact ih (chainB_tail hc)
  | cons₂ a hs ih =>
    rename_i l₁ l₂
    have htail := ih (chainB_tail hc)
    cases l₁ with
    | nil => rfl
    | cons b u =>
      rw [chainB_cons_cons, htail, Bool.and_true]
      exact chainB_head_rel htr hc b (hs.subset (by simp))

/-! Interplay between `List.isPrefixOf` and the lexicographic order. -/

theorem isPrefixOf_iff_append {p k : Bytes} :
    p.isPrefixOf k = true ↔ ∃ t, k = p ++ t := by
  induction p generalizing k with
  | nil => simp [List.isPrefixOf]
  | cons a s ih =>
    cases k with
    | nil => simp [List.isPrefixOf]
    | cons b t =>
      simp only [List.isPrefixOf, Bool.and_eq_true_iff, beq_iff_eq, ih, List.cons_append,
        List.cons.injEq]
      constructor
      · rintro ⟨rfl, u, rfl⟩; exact ⟨u, rfl, rfl⟩
      · rintro ⟨u, rfl, rfl⟩; exact ⟨rfl, u, rfl⟩

theorem not_bLt_of_isPrefixOf {p k : Bytes} (h : p.isPrefixOf k = true) :
    bLt k p = false := by
  obtain ⟨t, rfl⟩ := isPrefixOf_iff_append.mp h
  induction p with
  | nil => cases t <;> rfl
  | cons a s ih => simpa [bLt] using ih

/-- If `p ≤ k < p ++ t` lexicographically, then `p` is a prefix of `k`. -/
theorem isPrefixOf_of_between {p k t : Bytes} (h1 : bLt k p = false)
    (h2 : bLt k (p ++ t) = true) : p.isPrefixOf k = true := by
  induction p generalizing k with
  | nil => simp [List.isPrefixOf]
  | cons a s ih =>
    cases k with
    | nil => simp [bLt] at h1
    | cons b u =>
      rcases Nat.lt_trichotomy a b with hab | hab | hab
      · rw [List.cons_append] at h2
        simp [bLt, hab, Nat.lt_asymm hab] at h2
      · subst hab
        rw [List.cons_append] at h2
        simp only [bLt, Nat.lt_irrefl, if_false] at h1 h2
        simp only [List.isPrefixOf, beq_self_eq_true, Bool.true_and]
        exact ih h1 h2
      · simp [bLt, hab] at h1

/-- Once a key at or past the scan seek point stops matching the scan target,
every later key also fails to match it. -/
theorem not_isPrefixOf_of_ge_of_not {p k k' : Bytes} (h1 : bLt k p = false)
    (h2 : p.isPrefixOf k = false) (h3 : bLt k k' = true) :
    p.isPrefixOf k' = false := by
  cases h : p.isPrefixOf k' with
  | false => rfl
  | true =>
    obtain ⟨t, rfl⟩ := isPrefixOf_iff_append.mp h
    rw [isPrefixOf_of_between h1 h3] at h2
    cases h2

/-! A tiny ordered association-list KV store: the model of the RocksDB handle.
Keys are byte strings; the list is maintained strictly sorted by `bLt`. -/

/-- Point lookup. -/
def kvGet (s : List (Bytes × α)) (k : Bytes) : Option α :=
  (s.find? (fun e => e.1 == k)).map (·.2)

/-- Ordered insert-or-replace, the model of `put`. -/
def kvPut (s : List (Bytes × α)) (k : Bytes) (v : α) : List (Bytes × α) :=
  match s with
  | [] => [(k, v)]
  | (k', v') :: t =>
    if bLt k k' then (k, v) :: (k', v') :: t
    else if k == k' then (k, v) :: t
    else (k', v') :: kvPut t k v

/-- Point delete, the model of `delete`. -/
def kvDel (s : List (Bytes × α)) (k : Bytes) : List (Bytes × α) :=
  s.filter (fun e => !(e.1 == k))

/-- The store is strictly sorted by key; RocksDB iterates it in this order. -/
def kvSorted (s : List (Bytes × α)) : Bool :=
  chainB (fun a b => bLt a.1 b.1) s

theorem kvGet_nil (k : Bytes) : kvGet ([] : List (Bytes × α)) k = none := rfl

theorem kvGet_cons {e : Bytes × α} {t : List (Bytes × α)} {k : Bytes} :
    kvGet (e :: t) k = if e.1 = k then some e.2 else kvGet t k := by
  by_cases h : e.1 = k
  · rw [if_pos h, kvGet, List.find?_cons_of_pos _ (by simp [h])]
    rfl
  · rw [if_neg h, kvGet, List.find?_cons_of_neg _ (by simp [h])]
    rfl

theorem kvGet_kvPut_self (s : List (Bytes × α)) (k : Bytes) (v : α) :
    kvGet (kvPut s k v) k = some v := by
  induction s with
  | nil => simp [kvPut, kvGet_cons]
  | cons e t ih =>
    rw [kvPut]
    split
    · simp [kvGet_cons]
    · split
      · simp [kvGet_cons]
      · rename_i h1 h2
        rw [kvGet_cons, ih, if_neg]
        intro h
        exact h2 (beq_iff_eq.mpr h.symm)

theorem kvPut_cons_self {e : Bytes × α} {t : List (Bytes × α)} {v : α} :
    kvPut (e :: t) e.1 v = (e.1, v) :: t := by
  rw [kvPut]
  rw [if_neg (by simp [bLt_irrefl]), if_pos (by simp)]

theorem kvPut_sorted {s : List (Bytes × α)} (hs : kvSorted s = true) (k : Bytes) (v : α) :
    kvSorted (kvPut s k v) = true := by
  simp only [kvSorted] at hs ⊢
  induction s with
  | nil => rfl
  | cons e t ih =>
    rw [kvPut]
    split
    · rename_i h1
      rw [chainB_cons_cons, h1, Bool.true_and]
      exact hs
    · split
      · rename_i h1 h2
        have hk : k = e.1 := beq_iff_eq.mp h2
        subst hk
        cases t with
        | nil => rfl
        | cons f u => exact hs
      · rename_i h1 h2
        have htail := ih (chainB_tail hs)
        have hlt : bLt e.1 k = true :=
          bLt_of_ne_of_not_gt (fun hh => h2 (by simp [hh.symm])) (by simpa using h1)
        cases t with
        | nil => simpa [kvPut, chainB] using hlt
        | cons f u =>
          have hef : bLt e.1 f.1 = true := (Bool.and_eq_true_iff.mp hs).1
          rw [kvPut]
          rw [kvPut] at htail
          split
          · rename_i hf1
            rw [chainB_cons_cons, hlt, Bool.true_and]
            rw [if_pos hf1] at htail
            exact htail
          · split
            · rename_i hf1 hf2
              rw [chainB_cons_cons, hlt, Bool.true_and]
              rw [if_neg hf1, if_pos hf2] at htail
              exact htail
            · rename_i hf1 hf2
              rw [chainB_cons_cons, hef, Bool.true_and]
              rw [if_neg hf1, if_neg hf2] at htail
              exact htail

theorem kvDel_sorted {s : List (Bytes × α)} (hs : kvSorted s = true) (k : Bytes) :
    kvSorted (kvDel s k) = true := by
  simp only [kvSorted] at hs ⊢
  refine chainB_of_sublist ?_ (List.filter_sublist s) hs
  exact fun x y z hxy hyz => bLt_trans hxy hyz

/-! Big-endian fixed-width byte encoding of naturals, used by the codec for
ids, list positions and sorted-list sequence numbers. -/

/-- `beN d n` is the `d`-byte big-endian encoding of `n` (truncated mod `256 ^ d`). -/
def beN : Nat → Nat → Bytes
  | 0, _ => []
  | d + 1, n => (n / 256 ^ d) % 256 :: beN d (n % 256 ^ d)

theorem beN_length (d n : Nat) : (beN d n).length = d := by
  induction d generalizing n with
  | zero => rfl
  | succ d ih => simp [beN, ih]

theorem base_split_lt {B a b c d : Nat} (hb : b < B) (hd : d < B) :
    a * B + b < c * B + d ↔ (a < c ∨ (a = c ∧ b < d)) := by
  rcases Nat.lt_trichotomy a c with h | h | h
  · constructor
    · intro _; exact Or.inl h
    · intro _
      calc a * B + b < a * B + B := by omega
        _ = (a + 1) * B := by ring
        _ ≤ c * B := Nat.mul_le_mul_right B h
        _ ≤ c * B + d := Nat.le_add_right _ _
  · subst h
    constructor
    · intro hlt; exact Or.inr ⟨rfl, by omega⟩
    · rintro (h | ⟨_, h⟩)
      · exact absurd h (Nat.lt_irrefl a)
      · omega
  · constructor
    · intro hlt
      exfalso
      have : c * B + d < a * B + b := by
        calc c * B + d < c * B + B := by omega
          _ = (c + 1) * B := by ring
          _ ≤ a * B := Nat.mul_le_mul_right B h
          _ ≤ a * B + b := Nat.le_add_right _ _
      omega
    · rintro (h' | ⟨h', _⟩)
      · omega
      · omega

theorem beN_lt_iff {d n m : Nat} (hn : n < 256 ^ d) (hm : m < 256 ^ d) :
    bLt (beN d n) (beN d m) = true ↔ n < m := by
  induction d generalizing n m with
  | zero =>
    simp only [pow_zero, Nat.lt_one_iff] at hn hm
    subst hn; subst hm
    simp [beN, bLt]
  | succ d ih =>
    have hpos : 0 < (256 : Nat) ^ d := Nat.pos_pow_of_pos d (by omega)
    have hn' : n / 256 ^ d < 256 := by
      rw [Nat.div_lt_iff_lt_mul hpos]
      calc n < 256 ^ (d + 1) := hn
        _ = 256 ^ d * 256 := by rw [pow_succ]
        _ = 256 * 256 ^ d := by ring
    have hm' : m / 256 ^ d < 256 := by
      rw [Nat.div_lt_iff_lt_mul hpos]
      calc m < 256 ^ (d + 1) := hm
        _ = 256 ^ d * 256 := by rw [pow_succ]
        _ = 256 * 256 ^ d := by ring
    rw [beN, beN, Nat.mod_eq_of_lt hn', Nat.mod_eq_of_lt hm']
    have hsplit : n < m ↔
        (n / 256 ^ d < m / 256 ^ d ∨
          (n / 256 ^ d = m / 256 ^ d ∧ n % 256 ^ d < m % 256 ^ d)) := by
      conv_lhs => rw [(Nat.div_add_mod n (256 ^ d)).symm, (Nat.div_add_mod m (256 ^ d)).symm]
      rw [Nat.mul_comm (256 ^ d) (n / 256 ^ d), Nat.mul_comm (256 ^ d) (m / 256 ^ d)]
      exact base_split_lt (Nat.mod_lt n hpos) (Nat.mod_lt m hpos)
    rw [hsplit]
    rcases Nat.lt_trichotomy (n / 256 ^ d) (m / 256 ^ d) with h | h | h
    · simp [bLt, h]
    · rw [h]
      simp only [bLt, Nat.lt_irrefl, if_false]
      rw [ih (Nat.mod_lt n hpos) (Nat.mod_lt m hpos)]
      simp
    · have h1 : ¬ (n / 256 ^ d < m / 256 ^ d) := Nat.lt_asymm h
      have h2 : n / 256 ^ d ≠ m / 256 ^ d := fun hh => absurd hh.symm (Nat.ne_of_lt h)
      simp only [bLt, if_neg h1, if_pos h]
      simp [h1, h2]

theorem beN_inj {d n m : Nat} (hn : n < 256 ^ d) (hm : m < 256 ^ d)
    (h : beN d n = beN d m) : n = m := by
  rcases Nat.lt_trichotomy n m with h' | h' | h'
  · have := (beN_lt_iff hn hm).mpr h'
    rw [h, bLt_irrefl] at this
    cases this
  · exact h'
  · have := (beN_lt_iff hm hn).mpr h'
    rw [h, bLt_irrefl] at this
    cases this

/-! ## Codec

Modelled from the spec: the repository's `codec` module is not among the
sources (only `src/database.rs` is), so every function below follows the
spec's key-layout section: meta key `META_PREFIX || user_key`; data key
`DATA_PREFIX || id (8-byte big-endian) || type-specific tail`; list positions
bias-encoded by `2^63`; sorted-list tail `score || sequence (8 BE)`;
sorted-set forward tag `0x00` sorting before reverse tag `0x01`. -/

/-- Modelled from the spec: the fixed meta-key discriminator (`"m:"`). -/
def PREFIX_META : Bytes := [109, 58]

/-- Modelled from the spec: the fixed data-key discriminator (`"d:"`). -/
def PREFIX_DATA : Bytes := [100, 58]

/-- Modelled from the spec: the one-byte filler value stored for set members
and sorted-set forward records. -/
def FILL_EMPTY_DATA : Bytes := [0]

/-- Modelled from the spec: 8-byte big-endian encoding of a 64-bit value. -/
def u64be (n : Nat) : Bytes := beN 8 n

/-- Modelled from the spec: `encode_meta_key`. -/
def encode_meta_key (key : Bytes) : Bytes := PREFIX_META ++ key

/-- Modelled from the spec: `encode_data_key`, the per-meta data namespace. -/
def encode_data_key (id : Nat) : Bytes := PREFIX_DATA ++ u64be id

/-- Modelled from the spec: `encode_data_key_map_item` (tail = raw field bytes). -/
def encode_data_key_map_item (id : Nat) (field : Bytes) : Bytes :=
  encode_data_key id ++ field

/-- Modelled from the spec: `encode_data_key_set_item` (tail = raw value bytes). -/
def encode_data_key_set_item (id : Nat) (value : Bytes) : Bytes :=
  encode_data_key id ++ value

/-- Modelled from the spec: the order-preserving bias encoding of a signed
64-bit list position (`position + 2^63` as unsigned). -/
def i64bias (p : Int) : Nat := (p + 2 ^ 63).toNat

/-- Modelled from the spec: `encode_data_key_list_item`. -/
def encode_data_key_list_item (id : Nat) (position : Int) : Bytes :=
  encode_data_key id ++ u64be (i64bias position)

/-- Modelled from the spec: `encode_data_key_sorted_list_item`
(tail = `score || sequence (8 BE)`). -/
def encode_data_key_sorted_list_item (id : Nat) (score : Bytes) (sequence : Nat) : Bytes :=
  encode_data_key id ++ score ++ u64be sequence

/-- Modelled from the spec: `decode_data_key_sorted_list_item` recovers the
score: drop the 10-byte data-key head, strip the trailing 8 sequence bytes. -/
def decode_data_key_sorted_list_item (k : Bytes) : Bytes :=
  let tail := k.drop 10
  tail.take (tail.length - 8)

/-- Modelled from the spec: sorted-set forward tag `0x00`. -/
def SORTED_SET_TAG_FWD : Nat := 0

/-- Modelled from the spec: sorted-set reverse tag `0x01`. -/
def SORTED_SET_TAG_REV : Nat := 1

/-- Modelled from the spec: `encode_data_key_sorted_set_prefix`, the prefix of
the forward-tag subrange used by sorted-set scans. -/
def encode_data_key_sorted_set_fwd (id : Nat) : Bytes :=
  encode_data_key id ++ [SORTED_SET_TAG_FWD]

/-- Modelled from the spec: `encode_data_key_sorted_set_item_with_score`
(forward record key). -/
def encode_data_key_sorted_set_item_with_score (id : Nat) (score value : Bytes) : Bytes :=
  encode_data_key_sorted_set_fwd id ++ score ++ value

/-- Modelled from the spec: `encode_data_key_sorted_set_item_without_score`
(reverse record key). -/
def encode_data_key_sorted_set_item_without_score (id : Nat) (value : Bytes) : Bytes :=
  encode_data_key id ++ [SORTED_SET_TAG_REV] ++ value

/-! ## Key metadata

Modelled from the spec: `KeyMeta` lives in the missing codec module; its
packed byte layout (`id(8) || type(1) || count(8) || extra`) is represented
structurally here, with `extra` as the list of its per-type integer fields. -/

/-- The five logical collection types. -/
inductive KeyType where
  | Map
  | Set
  | List
  | SortedList
  | SortedSet
deriving DecidableEq, Repr

/-- Per-logical-key metadata record. `extra` holds the decoded per-type
fields: `[left, right]` for List, `[sequence, left_deleted, right_deleted]`
for SortedList, `[deleted_count, score_len]` for SortedSet, `[]` otherwise. -/
structure KeyMeta where
  id : Nat
  key_type : KeyType
  count : Nat
  extra : List Int
deriving DecidableEq, Repr

/-- Modelled from the spec: `KeyMeta::new` with the per-type default extra —
`(0, 1)` for List, `(0, 0, 0)` for SortedList, `(0, 0)` for SortedSet. -/
def KeyMeta.new (id : Nat) (kt : KeyType) : KeyMeta :=
  { id := id, key_type := kt, count := 0,
    extra := match kt with
      | .List => [0, 1]
      | .SortedList => [0, 0, 0]
      | .SortedSet => [0, 0]
      | _ => [] }

/-- Modelled from the spec: unpack `(left, right)` from a list meta. -/
def decode_list_extra (m : KeyMeta) : Int × Int :=
  (m.extra.getD 0 0, m.extra.getD 1 0)

/-- Modelled from the spec: pack `(left, right)` into a list meta. -/
def encode_list_extra (m : KeyMeta) (left right : Int) : KeyMeta :=
  { m with extra := [left, right] }

/-- Modelled from the spec: unpack `(sequence, left_deleted, right_deleted)`. -/
def decode_sorted_list_extra (m : KeyMeta) : Int × Int × Int :=
  (m.extra.getD 0 0, m.extra.getD 1 0, m.extra.getD 2 0)

/-- Modelled from the spec: pack `(sequence, left_deleted, right_deleted)`. -/
def encode_sorted_list_extra (m : KeyMeta) (sequence left_deleted right_deleted : Int) :
    KeyMeta :=
  { m with extra := [sequence, left_deleted, right_deleted] }

/-- Modelled from the spec: unpack `(deleted_count, score_len)`. -/
def decode_sorted_set_extra (m : KeyMeta) : Int × Int :=
  (m.extra.getD 0 0, m.extra.getD 1 0)

/-- Modelled from the spec: pack `(deleted_count, score_len)`. -/
def encode_sorted_set_extra (m : KeyMeta) (deleted_count score_len : Int) : KeyMeta :=
  { m with extra := [deleted_count, score_len] }

/-! ## Database state

The RocksDB keyspace is split into its two disjoint discriminator regions:
`metas` models the `PREFIX_META` region (keyed by the raw user key, holding
decoded metas) and `data` models the `PREFIX_DATA` region (full encoded data
keys).  Both are kept sorted, matching RocksDB iteration order; since no
meta key is ever a data key, per-region operations model the flat keyspace
faithfully.  `compact_range` calls have no effect on the logical contents
and are omitted. -/

/-- The `Options` struct of `database.rs`, minus the opaque RocksDB options. -/
structure Options where
  sorted_list_compact_deletes_count : Nat
  delete_meta_when_empty : Bool
deriving DecidableEq, Repr

/-- The `Default` impl for `Options`. -/
def Options.default : Options :=
  { sorted_list_compact_deletes_count := 300, delete_meta_when_empty := true }

/-- The error enum of `database.rs` (backend errors never occur in the model). -/
inductive Error where
  | FromUtf8
  | RocksDB
  | Message (msg : String)
deriving DecidableEq, Repr

/-- The `Database` struct: the two keyspace regions, the `next_key_id` cell
and the options. -/
structure DB where
  metas : List (Bytes × KeyMeta)
  data : List (Bytes × Bytes)
  next_key_id : Nat
  options : Options
deriving DecidableEq, Repr

/-- A freshly opened database over an empty RocksDB directory: no records,
and `after_open` leaves `next_key_id = 0 + 1`. -/
def emptyDB (opts : Options) : DB :=
  { metas := [], data := [], next_key_id := 1, options := opts }

/-- Forward-iterator prefix scan: seek to the first key not below `p`, then
visit entries while they match `p`, stopping at the first mismatch
(`Database::prefix_iterator` with the `has_prefix` break). -/
def scanPre (s : List (Bytes × Bytes)) (p : Bytes) : List (Bytes × Bytes) :=
  (s.dropWhile (fun e => bLt e.1 p)).takeWhile (fun e => p.isPrefixOf e.1)

/-- Forward iterator seek (`IteratorMode::From(p, Direction::Forward)` +
first `next()`): the first entry whose key is not below `p`. -/
def firstGe (s : List (Bytes × Bytes)) (p : Bytes) : Option (Bytes × Bytes) :=
  (s.dropWhile (fun e => bLt e.1 p)).head?

/-- Reverse iterator seek (`IteratorMode::From(p, Direction::Reverse)` +
first `next()`): the last entry whose key is not above `p`. -/
def lastLe (s : List (Bytes × Bytes)) (p : Bytes) : Option (Bytes × Bytes) :=
  (s.takeWhile (fun e => !(bLt p e.1))).getLast?

/-- `Database::get_meta`. -/
def get_meta (db : DB) (key : Bytes) : Option KeyMeta :=
  kvGet db.metas key

/-- `Database::save_meta`. -/
def save_meta (db : DB) (key : Bytes) (m : KeyMeta) (delete_if_empty : Bool) : DB :=
  if db.options.delete_meta_when_empty && delete_if_empty && decide (m.count < 1) then
    { db with metas := kvDel db.metas key }
  else
    { db with metas := kvPut db.metas key m }

/-- `Database::get_or_create_meta`. -/
def get_or_create_meta (db : DB) (key : Bytes) (kt : KeyType) : DB × KeyMeta :=
  match get_meta db key with
  | some m => (db, m)
  | none =>
    let m := KeyMeta.new db.next_key_id kt
    let db := { db with next_key_id := db.next_key_id + 1 }
    (save_meta db key m false, m)

/-- `Database::after_open`: replay the meta scan, remembering the id of each
meta visited (in meta-key order), and set `next_key_id` to the final
remembered id plus one. -/
def after_open (db : DB) : DB :=
  { db with next_key_id := (db.metas.foldl (fun _ e => e.2.id) 0) + 1 }

/-- The scan prefix chosen by `Database::for_each_data` for a meta. -/
def data_scan_key (m : KeyMeta) : Bytes :=
  match m.key_type with
  | .SortedSet => encode_data_key_sorted_set_fwd m.id
  | _ => encode_data_key m.id

/-- The entries visited by `Database::for_each_data` (the callback reified as
the visited list; the returned counter is its length). -/
def for_each_data_entries (db : DB) (key : Bytes) (pre : Option Bytes) :
    List (Bytes × Bytes) :=
  match get_meta db key with
  | none => []
  | some m =>
    if m.count > 0 then
      let k := data_scan_key m
      let k := match pre with
        | none => k
        | some p => k ++ p
      scanPre db.data k
    else []

/-- `Database::get_count`. -/
def get_count (db : DB) (key : Bytes) : Nat :=
  match get_meta db key with
  | some m => m.count
  | none => 0

/-- `Database::delete_all`: point-delete every visited data entry, then the
meta; the compaction request has no logical effect. -/
def delete_all (db : DB) (key : Bytes) : DB × Nat :=
  match get_meta db key with
  | none => (db, 0)
  | some _ =>
    let visited := for_each_data_entries db key none
    let db1 := { db with data := visited.foldl (fun (s : List (Bytes × Bytes)) (e : Bytes × Bytes) => kvDel s e.1) db.data }
    let db2 := { db1 with metas := kvDel db1.metas key }
    (db2, visited.length)

/-- `Database::map_count`. -/
def map_count (db : DB) (key : Bytes) : Nat := get_count db key

/-- `Database::map_get` (note: it resolves the meta via `get_or_create_meta`). -/
def map_get (db : DB) (key field : Bytes) : DB × Option Bytes :=
  let r := get_or_create_meta db key .Map
  (r.1, kvGet r.1.data (encode_data_key_map_item r.2.id field))

/-- `Database::map_put`. -/
def map_put (db : DB) (key field value : Bytes) : DB :=
  let r := get_or_create_meta db key .Map
  let db1 := r.1
  let m := r.2
  let full_key := encode_data_key_map_item m.id field
  let m1 := if (kvGet db1.data full_key).isNone then { m with count := m.count + 1 } else m
  let db2 := { db1 with data := kvPut db1.data full_key value }
  save_meta db2 key m1 false

/-- `Database::map_delete`. -/
def map_delete (db : DB) (key field : Bytes) : DB × Bool :=
  match get_meta db key with
  | none => (db, false)
  | some m =>
    let full_key := encode_data_key_map_item m.id field
    if (kvGet db.data full_key).isSome then
      let m1 := { m with count := m.count - 1 }
      let db1 := { db with data := kvDel db.data full_key }
      (save_meta db1 key m1 true, true)
    else
      (db, false)

/-- `Database::set_count`. -/
def set_count (db : DB) (key : Bytes) : Nat := get_count db key

/-- `Database::set_add`. -/
def set_add (db : DB) (key value : Bytes) : DB × Bool :=
  let r := get_or_create_meta db key .Set
  let db1 := r.1
  let m := r.2
  let full_key := encode_data_key_set_item m.id value
  let is_new_item := (kvGet db1.data full_key).isNone
  let m1 := if is_new_item then { m with count := m.count + 1 } else m
  let db2 := { db1 with data := kvPut db1.data full_key FILL_EMPTY_DATA }
  let db3 := if is_new_item then save_meta db2 key m1 false else db2
  (db3, is_new_item)

/-- `Database::set_is_member` (a pure read). -/
def set_is_member (db : DB) (key value : Bytes) : Bool :=
  match get_meta db key with
  | none => false
  | some m => (kvGet db.data (encode_data_key_set_item m.id value)).isSome

/-- `Database::set_delete`. -/
def set_delete (db : DB) (key value : Bytes) : DB × Bool :=
  match get_meta db key with
  | none => (db, false)
  | some m =>
    let full_key := encode_data_key_set_item m.id value
    if (kvGet db.data full_key).isSome then
      let m1 := { m with count := m.count - 1 }
      let db1 := { db with data := kvDel db.data full_key }
      (save_meta db1 key m1 true, true)
    else
      (db, false)

/-- `Database::list_count`. -/
def list_count (db : DB) (key : Bytes) : Nat := get_count db key

/-- `Database::list_left_pop`: read position `left + 1`; if present, shrink
the range, persist the meta (delete-if-empty) and delete the record. -/
def list_left_pop (db : DB) (key : Bytes) : DB × Option Bytes :=
  match get_meta db key with
  | none => (db, none)
  | some m =>
    let lr := decode_list_extra m
    let full_key := encode_data_key_list_item m.id (lr.1 + 1)
    match kvGet db.data full_key with
    | some value =>
      let m1 := encode_list_extra m (lr.1 + 1) lr.2
      let m2 := { m1 with count := m1.count - 1 }
      let db1 := save_meta db key m2 true
      let db2 := { db1 with data := kvDel db1.data full_key }
      (db2, some value)
    | none => (db, none)

/-- `Database::list_right_pop`: symmetric to `list_left_pop` on `right - 1`. -/
def list_right_pop (db : DB) (key : Bytes) : DB × Option Bytes :=
  match get_meta db key with
  | none => (db, none)
  | some m =>
    let lr := decode_list_extra m
    let full_key := encode_data_key_list_item m.id (lr.2 - 1)
    match kvGet db.data full_key with
    | some value =>
      let m1 := encode_list_extra m lr.1 (lr.2 - 1)
      let m2 := { m1 with count := m1.count - 1 }
      let db1 := save_meta db key m2 true
      let db2 := { db1 with data := kvDel db1.data full_key }
      (db2, some value)
    | none => (db, none)

/-- `Database::sorted_list_count`. -/
def sorted_list_count (db : DB) (key : Bytes) : Nat := get_count db key

/-- `Database::sorted_list_add`: key is `(score, sequence)`; bump sequence
and count. -/
def sorted_list_add (db : DB) (key score value : Bytes) : DB × Nat :=
  let r := get_or_create_meta db key .SortedList
  let db1 := r.1
  let m := r.2
  let e := decode_sorted_list_extra m
  let full_key := encode_data_key_sorted_list_item m.id score e.1.toNat
  let m1 := encode_sorted_list_extra m (e.1 + 1) e.2.1 e.2.2
  let m2 := { m1 with count := m1.count + 1 }
  let db2 := { db1 with data := kvPut db1.data full_key value }
  (save_meta db2 key m2 false, m2.count)

/-- `Database::sorted_list_left_pop`: take the first entry of the data
range; honour `max_score`; delete it and update the left-deleted counter
(the compaction request itself has no logical effect). Divergence: the
source evaluates `left_deleted_count % sorted_list_compact_deletes_count`
and aborts (remainder by zero) when the configured count is 0 and the
counter is positive; the model's `Int` remainder by zero returns the
dividend and continues, so theorems that reach this branch assume a
nonzero `sorted_list_compact_deletes_count`. -/
def sorted_list_left_pop (db : DB) (key : Bytes) (max_score : Option Bytes) :
    DB × Option (Bytes × Bytes) :=
  match get_meta db key with
  | none => (db, none)
  | some m =>
    let e := decode_sorted_list_extra m
    let pre := encode_data_key m.id
    match firstGe db.data pre with
    | none => (db, none)
    | some kv =>
      if pre.isPrefixOf kv.1 then
        let score := decode_data_key_sorted_list_item kv.1
        if (match max_score with
            | some ms => bLt ms score
            | none => false) then
          (db, none)
        else
          let db1 := { db with data := kvDel db.data kv.1 }
          let m1 := { m with count := m.count - 1 }
          let m2 := if 0 < e.2.1 ∧
              e.2.1 % (db.options.sorted_list_compact_deletes_count : Int) = 0 then
            encode_sorted_list_extra m1 e.1 0 e.2.2
          else
            encode_sorted_list_extra m1 e.1 (e.2.1 + 1) e.2.2
          (save_meta db1 key m2 true, some (score, kv.2))
      else
        (db, none)

/-- `Database::sorted_list_right_pop`: reverse-seek from the next id's data
range; honour `min_score`; delete and update the right-deleted counter.
Same divergence as `sorted_list_left_pop`: the source aborts on remainder
by zero when `sorted_list_compact_deletes_count = 0` and the right-deleted
counter is positive, while the model continues. -/
def sorted_list_right_pop (db : DB) (key : Bytes) (min_score : Option Bytes) :
    DB × Option (Bytes × Bytes) :=
  match get_meta db key with
  | none => (db, none)
  | some m =>
    let e := decode_sorted_list_extra m
    let pre := encode_data_key m.id
    let next_pre := encode_data_key (m.id + 1)
    match lastLe db.data next_pre with
    | none => (db, none)
    | some kv =>
      if pre.isPrefixOf kv.1 then
        let score := decode_data_key_sorted_list_item kv.1
        if (match min_score with
            | some ms => bLt score ms
            | none => false) then
          (db, none)
        else
          let db1 := { db with data := kvDel db.data kv.1 }
          let m1 := { m with count := m.count - 1 }
          let m2 := if 0 < e.2.2 ∧
              e.2.2 % (db.options.sorted_list_compact_deletes_count : Int) = 0 then
            encode_sorted_list_extra m1 e.1 e.2.1 0
          else
            encode_sorted_list_extra m1 e.1 e.2.1 (e.2.2 + 1)
          (save_meta db1 key m2 true, some (score, kv.2))
      else
        (db, none)

/-- `Database::sorted_set_count`. -/
def sorted_set_count (db : DB) (key : Bytes) : Nat := get_count db key

/-- The `Message` text produced by `sorted_set_add` on a score-length
mismatch. -/
def invalid_score_len_msg (expected got : Int) : String :=
  "invalid score length, expected " ++ toString expected ++ " bytes but got " ++
    toString got ++ " bytes"

/-- `Database::sorted_set_add`: fix `score_len` on first insert (the length
is cast to `u8`, i.e. reduced mod 256); afterwards reject mismatching
lengths with `Message`; then write the forward and reverse records and bump
the count. -/
def sorted_set_add (db : DB) (key score value : Bytes) : DB × Except Error Nat :=
  let r := get_or_create_meta db key .SortedSet
  let db1 := r.1
  let m := r.2
  let e := decode_sorted_set_extra m
  let full_key1 := encode_data_key_sorted_set_item_with_score m.id score value
  let full_key2 := encode_data_key_sorted_set_item_without_score m.id value
  let actual_len : Int := ((score.length % 256 : Nat) : Int)
  if e.2 < 1 then
    let m1 := encode_sorted_set_extra m e.1 actual_len
    let m2 := { m1 with count := m1.count + 1 }
    let db2 := { db1 with data := kvPut db1.data full_key1 FILL_EMPTY_DATA }
    let db3 := { db2 with data := kvPut db2.data full_key2 score }
    (save_meta db3 key m2 false, .ok m2.count)
  else if e.2 ≠ actual_len then
    (db1, .error (.Message (invalid_score_len_msg e.2 actual_len)))
  else
    let m2 := { m with count := m.count + 1 }
    let db2 := { db1 with data := kvPut db1.data full_key1 FILL_EMPTY_DATA }
    let db3 := { db2 with data := kvPut db2.data full_key2 score }
    (save_meta db3 key m2 false, .ok m2.count)

/-- `Database::sorted_set_is_member` (a pure read on the reverse record). -/
def sorted_set_is_member (db : DB) (key value : Bytes) : Bool :=
  match get_meta db key with
  | none => false
  | some m =>
    (kvGet db.data (encode_data_key_sorted_set_item_without_score m.id value)).isSome

/-- `Database::sorted_set_delete`: look up the score through the reverse
record; delete both records, decrement the count and update the
deleted-count (the compaction request has no logical effect). Same
divergence as `sorted_list_left_pop`: the source aborts on remainder by
zero when `sorted_list_compact_deletes_count = 0` and the deleted counter
is positive, while the model continues; the branch is unreachable from a
missing key. -/
def sorted_set_delete (db : DB) (key value : Bytes) : DB × Bool :=
  match get_meta db key with
  | none => (db, false)
  | some m =>
    let e := decode_sorted_set_extra m
    let full_key1 := encode_data_key_sorted_set_item_without_score m.id value
    match kvGet db.data full_key1 with
    | none => (db, false)
    | some score =>
      let full_key2 := encode_data_key_sorted_set_item_with_score m.id score value
      let db1 := { db with data := kvDel db.data full_key2 }
      let db2 := { db1 with data := kvDel db1.data full_key1 }
      let m1 := { m with count := m.count - 1 }
      let m2 := if 0 < e.1 ∧
          e.1 % (db.options.sorted_list_compact_deletes_count : Int) = 0 then
        encode_sorted_set_extra m1 0 e.2
      else
        encode_sorted_set_extra m1 (e.1 + 1) e.2
      (save_meta db2 key m2 true, true)

/-! ## Claim C1 -/

/-- C1: the claim states that after reopening, `next_key_id` exceeds every
surviving id and later ids are fresh.  The code instead sets `next_key_id`
to one more than the id of the *last meta in meta-key order* (not the
maximum).  Concretely: create key `"b"` (id 1) then `"a"` (id 2); after
`after_open` the scan visits `"a"`(2) then `"b"`(1), so `next_key_id = 2`;
the next created key `"c"` receives id 2, duplicating the id of the
surviving meta `"a"`. -/
theorem c1_reopen_assigns_duplicate_id :
    (let db1 := (set_add (emptyDB Options.default) [98] [1]).1
     let db2 := (set_add db1 [97] [1]).1
     let db3 := after_open db2
     let db4 := (set_add db3 [99] [1]).1
     db2.metas.map (fun e => (e.1, e.2.id)) = [([97], 2), ([98], 1)] ∧
     db3.next_key_id = 2 ∧
     (get_meta db4 [97]).map (·.id) = some 2 ∧
     (get_meta db4 [99]).map (·.id) = some 2) := by
  decide

/-! ## Claim C2 -/

/-- C2: the claim states that `sorted_set_add` of an already-present value
first removes the existing member's records, keeping exactly one forward
record per member and `count` equal to the member cardinality.  The code
does not delete anything: re-adding value `[118]` with a new score leaves
both forward records in place and bumps `count` to 2 although the set has a
single member. -/
theorem c2_re_add_leaves_stale_forward_record :
    (let db1 := (sorted_set_add (emptyDB Options.default) [115] [0] [118]).1
     let db2 := (sorted_set_add db1 [115] [1] [118]).1
     (get_meta db2 [115]).map (·.count) = some 2 ∧
     db2.data.map (·.1) =
       [encode_data_key_sorted_set_item_with_score 1 [0] [118],
        encode_data_key_sorted_set_item_with_score 1 [1] [118],
        encode_data_key_sorted_set_item_without_score 1 [118]]) := by
  decide

/-! ## Claim C3 -/

/-- C3 counterexample: on a sorted-set with one member, `delete_all` scans
only the forward-tag subrange, so it deletes one record, returns 1 (not 2),
and leaves the member's reverse record — whose key begins with the meta's
data prefix — in the store. -/
theorem c3_delete_all_misses_reverse_record :
    (let db1 := (sorted_set_add (emptyDB Options.default) [115] [0] [118]).1
     let r := delete_all db1 [115]
     r.2 = 1 ∧
     r.1.data = [(encode_data_key_sorted_set_item_without_score 1 [118], [0])] ∧
     (encode_data_key 1).isPrefixOf (encode_data_key_sorted_set_item_without_score 1 [118])
       = true) := by
  decide

/-! ## Claim C4 -/

/-- C4 counterexample: `map_get` on a logical key with no meta returns
`none` but is not read-only — it creates a fresh `Map` meta for the key and
increments `next_key_id`. -/
theorem c4_map_get_creates_meta :
    (let r := map_get (emptyDB Options.default) [97] [5]
     r.2 = none ∧
     r.1.next_key_id = 2 ∧
     get_meta r.1 [97] = some (KeyMeta.new 1 .Map)) := by
  decide

/-- C4 amended: pure reads other than `map_get` (counts, membership tests)
return their empty results and touch no state, but `map_get` on a missing
key — while still returning `none` when no stale data record exists under
the fresh id — creates a `Map` meta for the key and increments
`next_key_id`. -/
theorem c4_amended_map_get_allocates (db : DB) (k f v : Bytes)
    (h : get_meta db k = none)
    (hd : kvGet db.data (encode_data_key_map_item db.next_key_id f) = none) :
    (map_get db k f).2 = none ∧
    (map_get db k f).1.next_key_id = db.next_key_id + 1 ∧
    get_meta (map_get db k f).1 k = some (KeyMeta.new db.next_key_id .Map) ∧
    (map_get db k f).1.data = db.data ∧
    get_count db k = 0 ∧
    set_is_member db k v = false ∧
    sorted_set_is_member db k v = false := by
  have hmg : map_get db k f =
      ({ db with next_key_id := db.next_key_id + 1,
                 metas := kvPut db.metas k (KeyMeta.new db.next_key_id .Map) }, none) := by
    rw [map_get, get_or_create_meta, h]
    simp only [save_meta, Bool.and_false, Bool.false_and, if_neg (by simp : ¬ (false = true))]
    rw [show (KeyMeta.new db.next_key_id KeyType.Map).id = db.next_key_id from rfl, hd]
  refine ⟨by rw [hmg], by rw [hmg], ?_, by rw [hmg], ?_, ?_, ?_⟩
  · rw [hmg, get_meta]
    exact kvGet_kvPut_self db.metas k (KeyMeta.new db.next_key_id .Map)
  · rw [get_count, h]
  · rw [set_is_member, h]
  · rw [sorted_set_is_member, h]

/-- C4 amended, witness. -/
theorem c4_amended_map_get_allocates_witness :
    (map_get (emptyDB Options.default) [97] [5]).2 = none ∧
    (map_get (emptyDB Options.default) [97] [5]).1.next_key_id = 1 + 1 ∧
    get_meta (map_get (emptyDB Options.default) [97] [5]).1 [97] =
      some (KeyMeta.new 1 .Map) ∧
    (map_get (emptyDB Options.default) [97] [5]).1.data = (emptyDB Options.default).data ∧
    get_count (emptyDB Options.default) [97] = 0 ∧
    set_is_member (emptyDB Options.default) [97] [1] = false ∧
    sorted_set_is_member (emptyDB Options.default) [97] [1] = false :=
  c4_amended_map_get_allocates (emptyDB Options.default) [97] [5] [1] (by decide) (by decide)

/-! ## Claim C7 -/

/-- C7: for a logical key with no meta record, nothing errs: all count
reads return 0, membership reads and deletes return `false`, and all four
pops return `none` (each leaving the state untouched). -/
theorem c7_missing_key_is_not_an_error (db : DB) (k v f : Bytes)
    (h : get_meta db k = none) :
    get_count db k = 0 ∧
    map_count db k = 0 ∧
    set_count db k = 0 ∧
    list_count db k = 0 ∧
    sorted_list_count db k = 0 ∧
    sorted_set_count db k = 0 ∧
    set_is_member db k v = false ∧
    sorted_set_is_member db k v = false ∧
    map_delete db k f = (db, false) ∧
    set_delete db k v = (db, false) ∧
    sorted_set_delete db k v = (db, false) ∧
    list_left_pop db k = (db, none) ∧
    list_right_pop db k = (db, none) ∧
    sorted_list_left_pop db k none = (db, none) ∧
    sorted_list_right_pop db k none = (db, none) := by
  refine ⟨?_, ?_, ?_, ?_, ?_, ?_, ?_, ?_, ?_, ?_, ?_, ?_, ?_, ?_, ?_⟩ <;>
    simp [get_count, map_count, set_count, list_count, sorted_list_count, sorted_set_count,
      set_is_member, sorted_set_is_member, map_delete, set_delete, sorted_set_delete,
      list_left_pop, list_right_pop, sorted_list_left_pop, sorted_list_right_pop, h]

/-- C7, witness. -/
theorem c7_missing_key_is_not_an_error_witness :
    get_count (emptyDB Options.default) [97] = 0 ∧
    map_count (emptyDB Options.default) [97] = 0 ∧
    set_count (emptyDB Options.default) [97] = 0 ∧
    list_count (emptyDB Options.default) [97] = 0 ∧
    sorted_list_count (emptyDB Options.default) [97] = 0 ∧
    sorted_set_count (emptyDB Options.default) [97] = 0 ∧
    set_is_member (emptyDB Options.default) [97] [1] = false ∧
    sorted_set_is_member (emptyDB Options.default) [97] [1] = false ∧
    map_delete (emptyDB Options.default) [97] [2] = (emptyDB Options.default, false) ∧
    set_delete (emptyDB Options.default) [97] [1] = (emptyDB Options.default, false) ∧
    sorted_set_delete (emptyDB Options.default) [97] [1] = (emptyDB Options.default, false) ∧
    list_left_pop (emptyDB Options.default) [97] = (emptyDB Options.default, none) ∧
    list_right_pop (emptyDB Options.default) [97] = (emptyDB Options.default, none) ∧
    sorted_list_left_pop (emptyDB Options.default) [97] none = (emptyDB Options.default, none) ∧
    sorted_list_right_pop (emptyDB Options.default) [97] none = (emptyDB Options.default, none) :=
  c7_missing_key_is_not_an_error (emptyDB Options.default) [97] [1] [2] (by decide)

/-- Decidable equality for `Except`, needed to evaluate results by `decide`. -/
instance {e : Type} {a : Type} [DecidableEq e] [DecidableEq a] : DecidableEq (Except e a) := fun
  | .ok x, .ok y =>
    if h : x = y then isTrue (by rw [h]) else isFalse (by intro hh; cases hh; exact h rfl)
  | .ok _, .error _ => isFalse (by intro hh; cases hh)
  | .error _, .ok _ => isFalse (by intro hh; cases hh)
  | .error x, .error y =>
    if h : x = y then isTrue (by rw [h]) else isFalse (by intro hh; cases hh; exact h rfl)

/-! ## Claim C8 -/

set_option maxRecDepth 100000 in
/-- C8 counterexample: the stored `score_len` for key `"s"` is 1, and a
score of length 257 differs from it — yet `sorted_set_add` accepts it,
because the length check compares the length cast to `u8` (257 mod 256 = 1). -/
theorem c8_score_len_257_accepted :
    (let db1 := (sorted_set_add (emptyDB Options.default) [115] [7] [1]).1
     decode_sorted_set_extra ((get_meta db1 [115]).getD (KeyMeta.new 0 .Map)) = (0, 1) ∧
     (sorted_set_add db1 [115] (List.replicate 257 0) [2]).2 = .ok 2) := by
  decide

/-- C8 amended: with a fixed nonzero `score_len`, `sorted_set_add` with a
score whose length is *not congruent to `score_len` mod 256* returns the
`Message` error and leaves the whole state unchanged (no records written,
meta untouched). -/
theorem c8_amended_score_len_mismatch (db : DB) (k score v : Bytes) (m : KeyMeta)
    (h : get_meta db k = some m)
    (hpos : 0 < (decode_sorted_set_extra m).2)
    (hne : (decode_sorted_set_extra m).2 ≠ ((score.length % 256 : Nat) : Int)) :
    sorted_set_add db k score v =
      (db, .error (.Message (invalid_score_len_msg (decode_sorted_set_extra m).2
        ((score.length % 256 : Nat) : Int)))) := by
  simp only [sorted_set_add, get_or_create_meta, h]
  rw [if_neg (by omega : ¬ (decode_sorted_set_extra m).2 < 1), if_pos hne]

/-- C8 amended, witness: stored `score_len` is 1, the new score has length 2. -/
theorem c8_amended_score_len_mismatch_witness :
    sorted_set_add ((sorted_set_add (emptyDB Options.default) [115] [7] [1]).1)
        [115] [1, 2] [9] =
      (((sorted_set_add (emptyDB Options.default) [115] [7] [1]).1),
       .error (.Message (invalid_score_len_msg
         (decode_sorted_set_extra (KeyMeta.mk 1 .SortedSet 1 [0, 1])).2
         ((([1, 2] : Bytes).length % 256 : Nat) : Int)))) :=
  c8_amended_score_len_mismatch _ [115] [1, 2] [9] (KeyMeta.mk 1 .SortedSet 1 [0, 1])
    (by decide) (by decide) (by decide)

/-! ## Claim C9 -/

/-- C9: no operation validates the meta's `key_type`.  `get_or_create_meta`
returns any existing meta unchanged whatever type is requested, and
`map_put` on a key whose meta was created by another type succeeds, reuses
the same meta (same id, count adjusted by its own presence check, type left
as-is) and writes the map-shaped record in that meta's id namespace. -/
theorem c9_no_type_validation (db : DB) (k f v : Bytes) (m : KeyMeta)
    (h : get_meta db k = some m) :
    (∀ kt, get_or_create_meta db k kt = (db, m)) ∧
    (map_put db k f v).next_key_id = db.next_key_id ∧
    get_meta (map_put db k f v) k =
      some (if (kvGet db.data (encode_data_key_map_item m.id f)).isNone
            then { m with count := m.count + 1 } else m) ∧
    kvGet (map_put db k f v).data (encode_data_key_map_item m.id f) = some v := by
  have hput : map_put db k f v =
      { db with data := kvPut db.data (encode_data_key_map_item m.id f) v,
                metas := kvPut db.metas k
                  (if (kvGet db.data (encode_data_key_map_item m.id f)).isNone
                   then { m with count := m.count + 1 } else m) } := by
    simp only [map_put, get_or_create_meta, h, save_meta, Bool.and_false, Bool.false_and,
      if_neg (by simp : ¬ (false = true))]
  refine ⟨fun kt => by rw [get_or_create_meta, h], by rw [hput], ?_, ?_⟩
  · rw [hput, get_meta]
    exact kvGet_kvPut_self _ _ _
  · rw [hput]
    exact kvGet_kvPut_self _ _ _

/-- C9, witness: the key's meta was created by `set_add` (type `Set`), and
`map_put` operates on it without any error. -/
theorem c9_no_type_validation_witness :
    (∀ kt, get_or_create_meta ((set_add (emptyDB Options.default) [107] [1]).1) [107] kt =
      (((set_add (emptyDB Options.default) [107] [1]).1), KeyMeta.mk 1 .Set 1 [])) ∧
    (map_put ((set_add (emptyDB Options.default) [107] [1]).1) [107] [2] [3]).next_key_id =
      ((set_add (emptyDB Options.default) [107] [1]).1).next_key_id ∧
    get_meta (map_put ((set_add (emptyDB Options.default) [107] [1]).1) [107] [2] [3]) [107] =
      some (if (kvGet ((set_add (emptyDB Options.default) [107] [1]).1).data
                 (encode_data_key_map_item (KeyMeta.mk 1 .Set 1 []).id [2])).isNone
            then { KeyMeta.mk 1 .Set 1 [] with count := (KeyMeta.mk 1 .Set 1 []).count + 1 }
            else KeyMeta.mk 1 .Set 1 []) ∧
    kvGet (map_put ((set_add (emptyDB Options.default) [107] [1]).1) [107] [2] [3]).data
      (encode_data_key_map_item (KeyMeta.mk 1 .Set 1 []).id [2]) = some [3] :=
  c9_no_type_validation ((set_add (emptyDB Options.default) [107] [1]).1) [107] [2] [3]
    (KeyMeta.mk 1 .Set 1 []) (by decide)

/-! ## Claim C10 -/

set_option maxRecDepth 100000 in
/-- C10 counterexample: after a first insert with a 256-byte score the
stored `score_len` is 0, but it does *not* stay 0 and length checks are
applied later: the next add (score length 3) re-fixes `score_len` to 3, and
a subsequent add with a 4-byte score fails with `Message`. -/
theorem c10_score_len_is_refixed_later :
    (let db1 := (sorted_set_add (emptyDB Options.default) [115] (List.replicate 256 0) [1]).1
     let r2 := sorted_set_add db1 [115] [0, 0, 0] [2]
     let r3 := sorted_set_add r2.1 [115] (List.replicate 4 0) [3]
     decode_sorted_set_extra ((get_meta db1 [115]).getD (KeyMeta.new 0 .Map)) = (0, 0) ∧
     r2.2 = .ok 2 ∧
     decode_sorted_set_extra ((get_meta r2.1 [115]).getD (KeyMeta.new 0 .Map)) = (0, 3) ∧
     r3.2 = .error (.Message (invalid_score_len_msg 3 4))) := by
  decide

/-- C10 amended: `sorted_set_add` stores the score length cast to `u8`
(i.e. mod 256).  While the stored `score_len` is 0 an add applies no length
check and re-fixes `score_len` from its own score's length mod 256; and
with a nonzero stored `score_len`, any score whose length is congruent to
it mod 256 passes the length check. -/
theorem c10_amended_score_len_mod_256 (db : DB) (k score v : Bytes) (m : KeyMeta)
    (h : get_meta db k = some m) :
    ((decode_sorted_set_extra m).2 < 1 →
      (sorted_set_add db k score v).2 = .ok (m.count + 1) ∧
      (get_meta (sorted_set_add db k score v).1 k).map (fun mm => decode_sorted_set_extra mm)
        = some ((decode_sorted_set_extra m).1, ((score.length % 256 : Nat) : Int))) ∧
    ((0 : Int) < (decode_sorted_set_extra m).2 →
      (decode_sorted_set_extra m).2 = ((score.length % 256 : Nat) : Int) →
      (sorted_set_add db k score v).2 = .ok (m.count + 1)) := by
  constructor
  · intro hlt
    have hadd : sorted_set_add db k score v =
        ({ db with
            data := kvPut (kvPut db.data
              (encode_data_key_sorted_set_item_with_score m.id score v) FILL_EMPTY_DATA)
              (encode_data_key_sorted_set_item_without_score m.id v) score,
            metas := kvPut db.metas k
              { encode_sorted_set_extra m (decode_sorted_set_extra m).1
                  ((score.length % 256 : Nat) : Int) with
                count := m.count + 1 } },
         .ok (m.count + 1)) := by
      simp only [sorted_set_add, get_or_create_meta, h, save_meta, Bool.and_false,
        Bool.false_and, if_neg (by simp : ¬ (false = true))]
      rw [if_pos hlt]
      rfl
    rw [hadd]
    constructor
    · rfl
    · rw [get_meta]
      rw [kvGet_kvPut_self]
      rfl
  · intro hpos heq
    simp only [sorted_set_add, get_or_create_meta, h]
    rw [if_neg (by omega : ¬ (decode_sorted_set_extra m).2 < 1),
      if_neg (by simpa using heq)]

/-- C10 amended, witness: a sorted-set meta with stored `score_len = 0`
accepts an add without any length check. -/
theorem c10_amended_score_len_mod_256_witness :
    (sorted_set_add (DB.mk [([115], KeyMeta.mk 1 .SortedSet 0 [0, 0])] [] 2 Options.default)
      [115] [5] [6]).2 = .ok 1 :=
  ((c10_amended_score_len_mod_256 _ [115] [5] [6] (KeyMeta.mk 1 .SortedSet 0 [0, 0])
      (by decide)).1 (by decide)).1

/-! ## Claim C3, amended part -/

theorem chainB_keys_head_rel {e : Bytes × Bytes} {t : List (Bytes × Bytes)}
    (h : chainB (fun a b => bLt a.1 b.1) (e :: t) = true) :
    ∀ x ∈ t, bLt e.1 x.1 = true :=
  chainB_head_rel
    (fun (a b c : Bytes × Bytes) (hab : bLt a.1 b.1 = true) (hbc : bLt b.1 c.1 = true) =>
      bLt_trans hab hbc) h

theorem takeWhile_eq_filter_gen {α : Type} (P : α → Bool) (r : α → α → Bool)
    (htr : ∀ x y z, r x y = true → r y z = true → r x z = true)
    (t : List α) (hc : chainB r t = true)
    (hstay : ∀ x ∈ t, ∀ y ∈ t, P x = false → r x y = true → P y = false) :
    t.takeWhile P = t.filter P := by
  induction t with
  | nil => rfl
  | cons e u ih =>
    cases hp : P e with
    | true =>
      rw [List.takeWhile_cons_of_pos hp, List.filter_cons_of_pos hp,
        ih (chainB_tail hc)
          (fun x hx y hy => hstay x (List.mem_cons_of_mem e hx) y (List.mem_cons_of_mem e hy))]
    | false =>
      rw [List.takeWhile_cons_of_neg (by rw [hp]; exact Bool.false_ne_true),
        List.filter_cons_of_neg (by rw [hp]; exact Bool.false_ne_true)]
      rw [eq_comm, List.filter_eq_nil_iff]
      intro x hx
      rw [hstay e (List.mem_cons_self e u) x (List.mem_cons_of_mem e hx) hp
        (chainB_head_rel htr hc x hx)]
      exact Bool.false_ne_true

theorem scan_eq_filter_gen {α : Type} (P D : α → Bool) (r : α → α → Bool)
    (htr : ∀ x y z, r x y = true → r y z = true → r x z = true)
    (t : List α) (hc : chainB r t = true)
    (h1 : ∀ x ∈ t, D x = true → P x = false)
    (h2 : ∀ x ∈ t, ∀ y ∈ t, D x = false → r x y = true → D y = false)
    (h3 : ∀ x ∈ t, ∀ y ∈ t, D x = false → P x = false → r x y = true → P y = false) :
    (t.dropWhile D).takeWhile P = t.filter P := by
  induction t with
  | nil => rfl
  | cons e u ih =>
    cases hd : D e with
    | true =>
      rw [List.dropWhile_cons_of_pos hd,
        List.filter_cons_of_neg
          (by rw [h1 e (List.mem_cons_self e u) hd]; exact Bool.false_ne_true)]
      exact ih (chainB_tail hc)
        (fun x hx => h1 x (List.mem_cons_of_mem e hx))
        (fun x hx y hy => h2 x (List.mem_cons_of_mem e hx) y (List.mem_cons_of_mem e hy))
        (fun x hx y hy => h3 x (List.mem_cons_of_mem e hx) y (List.mem_cons_of_mem e hy))
    | false =>
      rw [List.dropWhile_cons_of_neg (by rw [hd]; exact Bool.false_ne_true)]
      cases hp : P e with
      | true =>
        rw [List.takeWhile_cons_of_pos hp, List.filter_cons_of_pos hp]
        refine congrArg (List.cons e) ?_
        apply takeWhile_eq_filter_gen P r htr u (chainB_tail hc)
        intro x hx y hy hpx hrxy
        have hdx : D x = false :=
          h2 e (List.mem_cons_self e u) x (List.mem_cons_of_mem e hx) hd
            (chainB_head_rel htr hc x hx)
        exact h3 x (List.mem_cons_of_mem e hx) y (List.mem_cons_of_mem e hy) hdx hpx hrxy
      | false =>
        rw [List.takeWhile_cons_of_neg (by rw [hp]; exact Bool.false_ne_true),
          List.filter_cons_of_neg (by rw [hp]; exact Bool.false_ne_true)]
        rw [eq_comm, List.filter_eq_nil_iff]
        intro x hx
        rw [h3 e (List.mem_cons_self e u) x (List.mem_cons_of_mem e hx) hd hp
          (chainB_head_rel htr hc x hx)]
        exact Bool.false_ne_true

theorem scanPre_eq_filter (s : List (Bytes × Bytes)) (p : Bytes)
    (hs : kvSorted s = true) :
    scanPre s p = s.filter (fun e => p.isPrefixOf e.1) := by
  simp only [kvSorted] at hs
  rw [scanPre]
  apply scan_eq_filter_gen (fun e => p.isPrefixOf e.1) (fun e => bLt e.1 p)
    (fun a b => bLt a.1 b.1)
    (fun (x y z : Bytes × Bytes) (hxy : bLt x.1 y.1 = true) (hyz : bLt y.1 z.1 = true) =>
      bLt_trans hxy hyz) s hs
  · intro x _ hd
    cases hx : List.isPrefixOf p x.1 with
    | false => rfl
    | true => rw [not_bLt_of_isPrefixOf hx] at hd; cases hd
  · intro x _ y _ hdx hrxy
    cases hdy : bLt y.1 p with
    | false => rfl
    | true => rw [bLt_trans hrxy hdy] at hdx; cases hdx
  · intro x _ y _ hdx hpx hrxy
    exact not_isPrefixOf_of_ge_of_not hdx hpx hrxy

theorem foldl_kvDel_eq_filter (vs s : List (Bytes × Bytes)) :
    vs.foldl (fun (acc : List (Bytes × Bytes)) (e : Bytes × Bytes) => kvDel acc e.1) s =
      s.filter (fun e => !(vs.any (fun w => w.1 == e.1))) := by
  induction vs generalizing s with
  | nil => simp
  | cons w vs' ih =>
    rw [List.foldl_cons, ih (kvDel s w.1), kvDel, List.filter_filter]
    apply List.filter_congr
    intro e _
    simp only [List.any_cons, Bool.not_or]
    rw [Bool.and_comm]
    congr 1
    rw [Bool.beq_comm]

/-- C3 amended: `delete_all` on an existing meta with a positive count
deletes exactly the data records whose key begins with the meta's scan
prefix (`data_scan_key`: the id's data prefix, except that for sorted-set
metas it is the forward-tag subrange only), returns their number, and
deletes the meta; for a missing key it returns 0 and changes nothing. -/
theorem c3_amended_delete_all (db : DB) (k : Bytes) (hs : kvSorted db.data = true) :
    (get_meta db k = none → delete_all db k = (db, 0)) ∧
    (∀ m, get_meta db k = some m → 0 < m.count →
      (delete_all db k).2 =
        (db.data.filter (fun e => (data_scan_key m).isPrefixOf e.1)).length ∧
      (delete_all db k).1.data =
        db.data.filter (fun e => !((data_scan_key m).isPrefixOf e.1)) ∧
      (delete_all db k).1.metas = kvDel db.metas k ∧
      (delete_all db k).1.next_key_id = db.next_key_id) := by
  constructor
  · intro h
    simp [delete_all, h]
  · intro m h hc
    have hent : for_each_data_entries db k none =
        db.data.filter (fun e => (data_scan_key m).isPrefixOf e.1) := by
      simp only [for_each_data_entries, h, gt_iff_lt]
      rw [if_pos hc]
      exact scanPre_eq_filter db.data (data_scan_key m) hs
    have hda : delete_all db k =
        ({ db with
            data := (for_each_data_entries db k none).foldl
              (fun (s : List (Bytes × Bytes)) (e : Bytes × Bytes) => kvDel s e.1) db.data,
            metas := kvDel db.metas k },
         (for_each_data_entries db k none).length) := by
      simp only [delete_all, h]
    rw [hda]
    refine ⟨by rw [hent], ?_, rfl, rfl⟩
    show (for_each_data_entries db k none).foldl
        (fun (s : List (Bytes × Bytes)) (e : Bytes × Bytes) => kvDel s e.1) db.data =
      db.data.filter (fun e => !((data_scan_key m).isPrefixOf e.1))
    rw [hent, foldl_kvDel_eq_filter]
    apply List.filter_congr
    intro e he
    congr 1
    cases hp : (data_scan_key m).isPrefixOf e.1 with
    | true =>
      rw [List.any_eq_true]
      exact ⟨e, List.mem_filter.mpr ⟨he, hp⟩, by simp⟩
    | false =>
      rw [List.any_eq_false]
      intro w hw
      have hwpre := (List.mem_filter.mp hw).2
      intro hweq
      rw [beq_iff_eq] at hweq
      rw [hweq] at hwpre
      rw [hp] at hwpre
      cases hwpre

/-- C3 amended, witness: a two-field map is fully cleared and counted. -/
theorem c3_amended_delete_all_witness :
    (get_meta ((map_put (map_put (emptyDB Options.default) [77] [1] [10]) [77] [2] [20]))
        [77] = none →
      delete_all (map_put (map_put (emptyDB Options.default) [77] [1] [10]) [77] [2] [20]) [77]
        = ((map_put (map_put (emptyDB Options.default) [77] [1] [10]) [77] [2] [20]), 0)) ∧
    (∀ m, get_meta (map_put (map_put (emptyDB Options.default) [77] [1] [10]) [77] [2] [20])
        [77] = some m → 0 < m.count →
      (delete_all (map_put (map_put (emptyDB Options.default) [77] [1] [10]) [77] [2] [20])
          [77]).2 =
        ((map_put (map_put (emptyDB Options.default) [77] [1] [10]) [77] [2] [20]).data.filter
          (fun e => (data_scan_key m).isPrefixOf e.1)).length ∧
      (delete_all (map_put (map_put (emptyDB Options.default) [77] [1] [10]) [77] [2] [20])
          [77]).1.data =
        (map_put (map_put (emptyDB Options.default) [77] [1] [10]) [77] [2] [20]).data.filter
          (fun e => !((data_scan_key m).isPrefixOf e.1)) ∧
      (delete_all (map_put (map_put (emptyDB Options.default) [77] [1] [10]) [77] [2] [20])
          [77]).1.metas =
        kvDel (map_put (map_put (emptyDB Options.default) [77] [1] [10]) [77] [2] [20]).metas
          [77] ∧
      (delete_all (map_put (map_put (emptyDB Options.default) [77] [1] [10]) [77] [2] [20])
          [77]).1.next_key_id =
        (map_put (map_put (emptyDB Options.default) [77] [1] [10]) [77] [2] [20]).next_key_id) :=
  c3_amended_delete_all (map_put (map_put (emptyDB Options.default) [77] [1] [10]) [77] [2] [20])
    [77] (by decide)

/-! ## Claim C6, counterexample part -/

/-- C6 counterexample: with variable-length scores whose byte strings are
prefix-related, `sorted_list_left_pop` does not drain in non-decreasing
score order: insert score `[0]` (sequence 0) then score `[]` (sequence 1);
the pops return score `[0]` first and then score `[]`, although `[]`
compares strictly below `[0]`. -/
theorem c6_pops_can_decrease_scores :
    (let db1 := (sorted_list_add (emptyDB Options.default) [113] [0] [121]).1
     let db2 := (sorted_list_add db1 [113] [] [120]).1
     let p1 := sorted_list_left_pop db2 [113] none
     let p2 := sorted_list_left_pop p1.1 [113] none
     p1.2 = some ([0], [121]) ∧ p2.2 = some ([], [120]) ∧ bLt [] [0] = true) := by
  decide

/-! ## Claim C5: the list invariant -/

theorem kvGet_singleton (k : Bytes) (m : α) : kvGet [(k, m)] k = some m := by
  rw [kvGet_cons, if_pos rfl]

theorem kvPut_singleton (k : Bytes) (m v : α) : kvPut [(k, m)] k v = [(k, v)] := by
  rw [kvPut, if_neg (by rw [bLt_irrefl]; exact Bool.false_ne_true), if_pos (by simp)]

/-- The per-key invariant driving claim C5, indexed by the number of
operations performed so far.  Either no meta (and no data) exists, or the
key holds a `List` meta whose `(left, right)` extra satisfies
`count = right - left - 1`, with bounds forced by the operation count, and
the data region holds exactly the item keys at positions strictly between
`left` and `right`. -/
def ListInv (k : Bytes) (n : Nat) (db : DB) : Prop :=
  db.next_key_id ≤ n + 1 ∧ 1 ≤ db.next_key_id ∧
  ((db.metas = [] ∧ db.data = []) ∨
   (∃ m l r, db.metas = [(k, m)] ∧ m.key_type = .List ∧ 1 ≤ m.id ∧ m.id < db.next_key_id ∧
     m.extra = [l, r] ∧ l < r ∧ (m.count : Int) = r - l - 1 ∧
     -(n : Int) ≤ l ∧ r ≤ (n : Int) + 1 ∧
     (∀ kk : Bytes, (kvGet db.data kk).isSome = true ↔
        ∃ p : Int, l < p ∧ p < r ∧ kk = encode_data_key_list_item m.id p)))

theorem listInv_mono {k : Bytes} {n : Nat} {db : DB} (h : ListInv k n db) :
    ListInv k (n + 1) db := by
  obtain ⟨hnk1, hnk2, hbr⟩ := h
  refine ⟨by omega, hnk2, ?_⟩
  rcases hbr with hb | ⟨m, l, r, hm, hty, hid1, hid2, hex, hlr, hcnt, hlb, hrb, hmem⟩
  · exact Or.inl hb
  · exact Or.inr ⟨m, l, r, hm, hty, hid1, hid2, hex, hlr, hcnt, by push_cast; omega,
      by push_cast; omega, hmem⟩

/-- Fold a batch of `sorted_list_add` calls for one key. -/
def addAll (k : Bytes) (db : DB) (items : List (Bytes × Bytes)) : DB :=
  items.foldl (fun d it => (sorted_list_add d k it.1 it.2).1) db

/-- Repeatedly `sorted_list_left_pop` (no score bound) until exhaustion. -/
def drainAll : Nat → Bytes → DB → List (Bytes × Bytes)
  | 0, _, _ => []
  | fuel + 1, k, db =>
    match sorted_list_left_pop db k none with
    | (_, none) => []
    | (db1, some sv) => sv :: drainAll fuel k db1

/-- The data records created by a batch of adds, with sequence numbers
starting at `i` (meta id 1, the id assigned on a fresh database). -/
def recordsFrom (i : Nat) : List (Bytes × Bytes) → List (Bytes × Bytes)
  | [] => []
  | it :: rest => (encode_data_key_sorted_list_item 1 it.1 i, it.2) :: recordsFrom (i + 1) rest

/-- No score in the list is a proper prefix of another (scores of one fixed
length, for example, always qualify). -/
def PrefixFree (items : List (Bytes × Bytes)) : Prop :=
  ∀ x ∈ items, ∀ y ∈ items, x.1.isPrefixOf y.1 = true → x.1 = y.1

theorem isPrefixOf_append_self (p t : Bytes) : p.isPrefixOf (p ++ t) = true :=
  isPrefixOf_iff_append.mpr ⟨t, rfl⟩

theorem decode_slKey (id : Nat) (s : Bytes) (i : Nat) :
    decode_data_key_sorted_list_item (encode_data_key_sorted_list_item id s i) = s := by
  rw [encode_data_key_sorted_list_item, decode_data_key_sorted_list_item, encode_data_key]
  have h10 : (PREFIX_DATA ++ u64be id).length = 10 := by
    rw [List.length_append, u64be, beN_length]
    rfl
  rw [List.append_assoc, show (10 : Nat) = (PREFIX_DATA ++ u64be id).length from h10.symm,
    List.drop_left]
  have hlen : (s ++ u64be i).length - 8 = s.length := by
    rw [List.length_append, u64be, beN_length]
    omega
  rw [hlen, List.take_left]

theorem sl_key_eq {id : Nat} {s t : Bytes} {i j : Nat} (hi : i < 2 ^ 64) (hj : j < 2 ^ 64)
    (h : encode_data_key_sorted_list_item id s i = encode_data_key_sorted_list_item id t j) :
    s = t ∧ i = j := by
  rw [encode_data_key_sorted_list_item, encode_data_key_sorted_list_item] at h
  have hlen8 : (u64be i).length = (u64be j).length := by
    rw [u64be, u64be, beN_length, beN_length]
  have hmain : encode_data_key id ++ s = encode_data_key id ++ t ∧ u64be i = u64be j := by
    apply List.append_inj h
    have htot := congrArg List.length h
    simp only [List.length_append, u64be, beN_length] at htot ⊢
    omega
  have hst : s = t := List.append_cancel_left hmain.1
  have h256 : (256 : Nat) ^ 8 = 2 ^ 64 := by norm_num
  have hij : i = j := beN_inj (by rw [h256]; exact hi) (by rw [h256]; exact hj) hmain.2
  exact ⟨hst, hij⟩

theorem kvPut_perm {s : List (Bytes × α)} {k : Bytes} {v : α}
    (h : ∀ e ∈ s, e.1 ≠ k) : List.Perm (kvPut s k v) ((k, v) :: s) := by
  induction s with
  | nil => exact List.Perm.refl _
  | cons e t ih =>
    rw [kvPut]
    split
    · exact List.Perm.refl _
    · split
      · rename_i h1 h2
        exact absurd (beq_iff_eq.mp h2).symm (h e (List.mem_cons_self e t))
      · refine List.Perm.trans (List.Perm.cons e (ih (fun x hx => h x (List.mem_cons_of_mem e hx)))) ?_
        exact List.Perm.swap (k, v) e t

theorem kvDel_cons_head {e : Bytes × Bytes} {rest : List (Bytes × Bytes)}
    (hs : kvSorted (e :: rest) = true) : kvDel (e :: rest) e.1 = rest := by
  simp only [kvSorted] at hs
  rw [kvDel, List.filter_cons_of_neg (by simp)]
  rw [List.filter_eq_self]
  intro x hx
  have hlt : bLt e.1 x.1 = true := chainB_keys_head_rel hs x hx
  have hne : ¬ (x.1 = e.1) := by
    intro hh
    rw [hh, bLt_irrefl] at hlt
    cases hlt
  simp [hne]

theorem bLt_append_left (c a b : Bytes) : bLt (c ++ a) (c ++ b) = bLt a b := by
  induction c with
  | nil => rfl
  | cons x cs ih => simp [bLt, ih]

theorem bLt_append_of_unrelated {s t : Bytes} (a b : Bytes)
    (hns : s.isPrefixOf t = false) (hnt : t.isPrefixOf s = false) :
    bLt (s ++ a) (t ++ b) = bLt s t := by
  induction s generalizing t with
  | nil => rw [List.isPrefixOf] at hns; cases hns
  | cons x s2 ih =>
    cases t with
    | nil => rw [List.isPrefixOf] at hnt; cases hnt
    | cons y t2 =>
      rcases Nat.lt_trichotomy x y with h | h | h
      · simp [bLt, h]
      · subst h
        simp only [List.isPrefixOf, beq_self_eq_true, Bool.true_and] at hns hnt
        simp only [List.cons_append, bLt, Nat.lt_irrefl, if_false]
        exact ih hns hnt
      · simp [bLt, h, Nat.lt_asymm h]

theorem bLe_refl (a : Bytes) : bLe a a = true := by
  rw [bLe, bLt_irrefl]
  rfl

theorem bLe_of_bLt {a b : Bytes} (h : bLt a b = true) : bLe a b = true := by
  rw [bLe, bLt_asymm h]
  rfl

theorem chainB_map_mem {α β : Type} (f : α → β) (r : α → α → Bool) (S : β → β → Bool)
    (l : List α) (hc : chainB r l = true)
    (h : ∀ x ∈ l, ∀ y ∈ l, r x y = true → S (f x) (f y) = true) :
    chainB S (l.map f) = true := by
  induction l with
  | nil => rfl
  | cons a t ih =>
    cases t with
    | nil => rfl
    | cons b u =>
      rw [List.map_cons, List.map_cons, chainB_cons_cons]
      have h1 : r a b = true := (Bool.and_eq_true_iff.mp hc).1
      have h2 : chainB r (b :: u) = true := (Bool.and_eq_true_iff.mp hc).2
      rw [h a (List.mem_cons_self _ _) b (List.mem_cons_of_mem _ (List.mem_cons_self _ _)) h1,
        Bool.true_and]
      rw [← List.map_cons]
      exact ih h2 (fun x hx y hy hr =>
        h x (List.mem_cons_of_mem a hx) y (List.mem_cons_of_mem a hy) hr)

theorem eq_of_perm_of_chainB {α : Type} (r : α → α → Bool)
    (htr : ∀ x y z, r x y = true → r y z = true → r x z = true)
    (hirr : ∀ x, r x x = false) :
    ∀ {l l' : List α}, List.Perm l l' → chainB r l = true → chainB r l' = true → l = l' := by
  intro l
  induction l with
  | nil =>
    intro l' hp _ _
    exact List.Perm.nil_eq hp
  | cons a t ih =>
    intro l' hp hc hc'
    cases l' with
    | nil => exact absurd hp.symm (by simp)
    | cons b t' =>
      have hab : a = b := by
        by_contra hne
        have hamem : a ∈ b :: t' := hp.subset (List.mem_cons_self a t)
        have hbmem : b ∈ a :: t := hp.symm.subset (List.mem_cons_self b t')
        have hat' : a ∈ t' := by
          rcases List.mem_cons.mp hamem with hh | hh
          · exact absurd hh hne
          · exact hh
        have hbt : b ∈ t := by
          rcases List.mem_cons.mp hbmem with hh | hh
          · exact absurd hh.symm hne
          · exact hh
        have h1 : r a b = true := chainB_head_rel htr hc b hbt
        have h2 : r b a = true := chainB_head_rel htr hc' a hat'
        have := htr a b a h1 h2
        rw [hirr] at this
        cases this
      subst hab
      have htp : List.Perm t t' := List.Perm.cons_inv hp
      rw [ih htp (chainB_tail hc) (chainB_tail hc')]

/-- The shape of a single-key sorted-list state while draining. -/
def SLState (k : Bytes) (db : DB) : Prop :=
  (kvGet db.metas k = none ∧ db.data = []) ∨
  (∃ m, db.metas = [(k, m)] ∧ m.count = db.data.length ∧ kvSorted db.data = true ∧
     ∀ e ∈ db.data, ∃ s i, e.1 = encode_data_key_sorted_list_item m.id s i)

theorem sl_pop_step (k : Bytes) (m : KeyMeta) (e : Bytes × Bytes)
    (rest : List (Bytes × Bytes)) (dbn : Nat) (dbo : Options)
    (hsort : kvSorted (e :: rest) = true)
    (hform : ∀ x ∈ (e :: rest), ∃ s i, x.1 = encode_data_key_sorted_list_item m.id s i) :
    ∃ metas1 : List (Bytes × KeyMeta),
      sorted_list_left_pop ⟨[(k, m)], e :: rest, dbn, dbo⟩ k none =
        (⟨metas1, rest, dbn, dbo⟩, some (decode_data_key_sorted_list_item e.1, e.2)) ∧
      ((m.count - 1 = 0 ∧ dbo.delete_meta_when_empty = true ∧ metas1 = []) ∨
        (∃ m2 : KeyMeta, metas1 = [(k, m2)] ∧ m2.id = m.id ∧ m2.count = m.count - 1)) := by
  have hgm : get_meta ⟨[(k, m)], e :: rest, dbn, dbo⟩ k = some m := kvGet_singleton k m
  obtain ⟨s0, i0, hke⟩ := hform e (List.mem_cons_self e rest)
  have hpre : (encode_data_key m.id).isPrefixOf e.1 = true := by
    rw [hke, encode_data_key_sorted_list_item, List.append_assoc]
    exact isPrefixOf_append_self _ _
  have hfg : firstGe (e :: rest) (encode_data_key m.id) = some e := by
    rw [firstGe, List.dropWhile_cons_of_neg
      (by rw [not_bLt_of_isPrefixOf hpre]; exact Bool.false_ne_true)]
    rfl
  have hdel : kvDel (e :: rest) e.1 = rest := kvDel_cons_head hsort
  simp only [sorted_list_left_pop, hgm, hfg, hpre, eq_self_iff_true, if_true,
    Bool.false_eq_true, if_false, hdel, save_meta, Bool.and_true]
  have hdelm : kvDel [(k, m)] k = [] := by
    rw [kvDel, List.filter_cons_of_neg (by simp), List.filter_nil]
  split
  · split
    · rename_i hc2
      rcases Bool.and_eq_true_iff.mp hc2 with ⟨h1, h2⟩
      rw [decide_eq_true_iff] at h2
      have h2' : m.count - 1 < 1 := h2
      refine ⟨[], ?_, Or.inl ⟨by omega, h1, rfl⟩⟩
      rw [hdelm]
    · refine ⟨[(k, encode_sorted_list_extra { m with count := m.count - 1 }
          (decode_sorted_list_extra m).1 0 (decode_sorted_list_extra m).2.2)],
        ?_, Or.inr ⟨_, rfl, rfl, rfl⟩⟩
      rw [kvPut_singleton]
  · split
    · rename_i hc2
      rcases Bool.and_eq_true_iff.mp hc2 with ⟨h1, h2⟩
      rw [decide_eq_true_iff] at h2
      have h2' : m.count - 1 < 1 := h2
      refine ⟨[], ?_, Or.inl ⟨by omega, h1, rfl⟩⟩
      rw [hdelm]
    · refine ⟨[(k, encode_sorted_list_extra { m with count := m.count - 1 }
          (decode_sorted_list_extra m).1 ((decode_sorted_list_extra m).2.1 + 1)
          (decode_sorted_list_extra m).2.2)],
        ?_, Or.inr ⟨_, rfl, rfl, rfl⟩⟩
      rw [kvPut_singleton]

theorem drain_spec (k : Bytes) : ∀ (n : Nat) (db : DB), SLState k db → db.data.length = n →
    drainAll n k db =
      db.data.map (fun e => (decode_data_key_sorted_list_item e.1, e.2)) := by
  intro n
  induction n with
  | zero =>
    intro db hwf hlen
    rw [List.length_eq_zero] at hlen
    rw [drainAll, hlen]
    rfl
  | succ n ih =>
    intro db hwf hlen
    obtain ⟨dbm, dbd, dbn, dbo⟩ := db
    simp only at hlen
    cases dbd with
    | nil => simp at hlen
    | cons e rest =>
      rcases hwf with ⟨hnone, hdat⟩ | ⟨m, hm, hcnt, hsort, hform⟩
      · simp only at hdat
        cases hdat
      · simp only at hm hcnt hsort hform
        subst hm
        obtain ⟨metas1, hpop, hbr⟩ := sl_pop_step k m e rest dbn dbo hsort hform
        rw [List.length_cons] at hlen
        have hlen' : rest.length = n := by omega
        rw [List.length_cons] at hcnt
        simp only [drainAll, hpop]
        have hwf' : SLState k ⟨metas1, rest, dbn, dbo⟩ := by
          rcases hbr with ⟨hc0, hopt, hmet⟩ | ⟨m2, hmet, hid, hcnt2⟩
          · subst hmet
            left
            refine ⟨rfl, ?_⟩
            simp only
            have : rest.length = 0 := by omega
            exact List.length_eq_zero.mp this
          · subst hmet
            right
            refine ⟨m2, rfl, ?_, ?_, ?_⟩
            · simp only
              omega
            · simp only
              simp only [kvSorted] at hsort ⊢
              exact chainB_tail hsort
            · intro x hx
              obtain ⟨s, i, hxk⟩ := hform x (List.mem_cons_of_mem e hx)
              exact ⟨s, i, by rw [hid]; exact hxk⟩
        rw [ih ⟨metas1, rest, dbn, dbo⟩ hwf' hlen']
        rfl

theorem recordsFrom_mem {x : Bytes × Bytes} : ∀ {j : Nat} {its : List (Bytes × Bytes)},
    x ∈ recordsFrom j its → ∃ it idx, it ∈ its ∧ j ≤ idx ∧ idx < j + its.length ∧
      x = (encode_data_key_sorted_list_item 1 it.1 idx, it.2) := by
  intro j its
  induction its generalizing j with
  | nil => intro hx; cases hx
  | cons it rest ih =>
    intro hx
    rw [recordsFrom] at hx
    rcases List.mem_cons.mp hx with hx | hx
    · exact ⟨it, j, List.mem_cons_self it rest, le_refl j, by simp, hx⟩
    · obtain ⟨it', idx, hmem, hle, hlt, hform⟩ := ih hx
      refine ⟨it', idx, List.mem_cons_of_mem it hmem, by omega, ?_, hform⟩
      rw [List.length_cons]
      omega

theorem chainB_cons_of_forall {r : α → α → Bool} {a : α} {l : List α}
    (hl : chainB r l = true) (ha : ∀ x ∈ l, r a x = true) : chainB r (a :: l) = true := by
  cases l with
  | nil => rfl
  | cons b t =>
    rw [chainB_cons_cons, ha b (List.mem_cons_self b t), Bool.true_and]
    exact hl

theorem addAll_go (k : Bytes) : ∀ (rest : List (Bytes × Bytes)) (j : Nat)
    (dat : List (Bytes × Bytes)) (dbn : Nat) (dbo : Options),
    j + rest.length ≤ 2 ^ 64 →
    kvSorted dat = true →
    (∀ x ∈ dat, ∃ s i, i < j ∧ x.1 = encode_data_key_sorted_list_item 1 s i) →
    ∃ dat1,
      addAll k ⟨[(k, KeyMeta.mk 1 .SortedList j [(j : Int), 0, 0])], dat, dbn, dbo⟩ rest =
        ⟨[(k, KeyMeta.mk 1 .SortedList (j + rest.length)
            [((j + rest.length : Nat) : Int), 0, 0])], dat1, dbn, dbo⟩ ∧
      List.Perm dat1 (recordsFrom j rest ++ dat) ∧ kvSorted dat1 = true ∧
      (∀ x ∈ dat1, ∃ s i, i < j + rest.length ∧
        x.1 = encode_data_key_sorted_list_item 1 s i) := by
  intro rest
  induction rest with
  | nil =>
    intro j dat dbn dbo hb hsort hform
    refine ⟨dat, ?_, ?_, hsort, ?_⟩
    · rw [addAll, List.foldl_nil]
      simp
    · rw [recordsFrom, List.nil_append]
    · intro x hx
      obtain ⟨s, i, hi, hxk⟩ := hform x hx
      exact ⟨s, i, by omega, hxk⟩
  | cons it rest ih =>
    intro j dat dbn dbo hb hsort hform
    rw [List.length_cons] at hb
    have hgm : get_meta ⟨[(k, KeyMeta.mk 1 .SortedList j [(j : Int), 0, 0])], dat, dbn, dbo⟩ k
        = some (KeyMeta.mk 1 .SortedList j [(j : Int), 0, 0]) := kvGet_singleton k _
    have hstep : (sorted_list_add
        ⟨[(k, KeyMeta.mk 1 .SortedList j [(j : Int), 0, 0])], dat, dbn, dbo⟩ k it.1 it.2).1 =
        ⟨[(k, KeyMeta.mk 1 .SortedList (j + 1) [((j + 1 : Nat) : Int), 0, 0])],
          kvPut dat (encode_data_key_sorted_list_item 1 it.1 j) it.2, dbn, dbo⟩ := by
      simp only [sorted_list_add, get_or_create_meta, hgm, decode_sorted_list_extra,
        encode_sorted_list_extra, save_meta, Bool.and_false, Bool.false_and,
        if_neg (by simp : ¬ (false = true)), kvPut_singleton]
      have hc1 : ((j : Int) + 1) = ((j + 1 : Nat) : Int) := by push_cast; ring
      simp only [List.getD, List.get?_cons_zero, List.get?_cons_succ, Option.getD_some]
      rw [show ((j : Int)).toNat = j from Int.toNat_natCast j, hc1]
    have hkey_new : ∀ x ∈ dat, x.1 ≠ encode_data_key_sorted_list_item 1 it.1 j := by
      intro x hx heq
      obtain ⟨s, i, hi, hxk⟩ := hform x hx
      rw [hxk] at heq
      have := sl_key_eq (by omega) (by omega) heq
      omega
    have hperm1 : List.Perm (kvPut dat (encode_data_key_sorted_list_item 1 it.1 j) it.2)
        ((encode_data_key_sorted_list_item 1 it.1 j, it.2) :: dat) :=
      kvPut_perm (fun e he => hkey_new e he)
    obtain ⟨dat1, hadd, hperm, hsort1, hform1⟩ :=
      ih (j + 1) (kvPut dat (encode_data_key_sorted_list_item 1 it.1 j) it.2) dbn dbo
        (by omega) (kvPut_sorted hsort _ _)
        (by
          intro x hx
          by_cases hk : x.1 = encode_data_key_sorted_list_item 1 it.1 j
          · exact ⟨it.1, j, by omega, hk⟩
          · have hxd : x ∈ dat := by
              have hsub := hperm1.subset hx
              rcases List.mem_cons.mp hsub with hh | hh
              · exfalso
                apply hk
                rw [hh]
              · exact hh
            obtain ⟨s, i, hi, hxk⟩ := hform x hxd
            exact ⟨s, i, by omega, hxk⟩)
    refine ⟨dat1, ?_, ?_, hsort1, ?_⟩
    · rw [addAll, List.foldl_cons, hstep]
      rw [addAll] at hadd
      rw [hadd]
      have : j + 1 + rest.length = j + (rest.length + 1) := by omega
      rw [this, List.length_cons]
    · refine hperm.trans ?_
      refine List.Perm.trans (List.Perm.append_left (recordsFrom (j + 1) rest) hperm1) ?_
      rw [recordsFrom, List.cons_append]
      exact List.perm_middle
    · intro x hx
      obtain ⟨s, i, hi, hxk⟩ := hform1 x hx
      exact ⟨s, i, by rw [List.length_cons]; omega, hxk⟩

theorem slKey_assoc (s : Bytes) (i : Nat) :
    encode_data_key_sorted_list_item 1 s i = encode_data_key 1 ++ (s ++ u64be i) := by
  rw [encode_data_key_sorted_list_item, List.append_assoc]

theorem recordsFrom_length : ∀ (j : Nat) (its : List (Bytes × Bytes)),
    (recordsFrom j its).length = its.length := by
  intro j its
  induction its generalizing j with
  | nil => rfl
  | cons it rest ih => simp [recordsFrom, ih]

theorem slKey_lt_of_seq_lt {s : Bytes} {i j : Nat} (hi : i < 2 ^ 64) (hj : j < 2 ^ 64)
    (hij : i < j) :
    bLt (encode_data_key_sorted_list_item 1 s i) (encode_data_key_sorted_list_item 1 s j)
      = true := by
  rw [slKey_assoc, slKey_assoc, bLt_append_left, bLt_append_left]
  have h256 : (256 : Nat) ^ 8 = 2 ^ 64 := by norm_num
  rw [u64be, u64be]
  exact (beN_lt_iff (by rw [h256]; exact hi) (by rw [h256]; exact hj)).mpr hij

theorem recordsFrom_filter_sorted (s : Bytes) : ∀ (its : List (Bytes × Bytes)) (j : Nat),
    j + its.length ≤ 2 ^ 64 →
    chainB (fun a b => bLt a.1 b.1) ((recordsFrom j its).filter
      (fun e => decode_data_key_sorted_list_item e.1 == s)) = true := by
  intro its
  induction its with
  | nil => intro j _; rfl
  | cons it rest ih =>
    intro j hb
    rw [List.length_cons] at hb
    rw [recordsFrom]
    cases hp : decode_data_key_sorted_list_item
        (encode_data_key_sorted_list_item 1 it.1 j) == s with
    | false =>
      rw [List.filter_cons_of_neg (by
        show ¬ (decode_data_key_sorted_list_item
          (encode_data_key_sorted_list_item 1 it.1 j) == s) = true
        rw [hp]
        exact Bool.false_ne_true)]
      exact ih (j + 1) (by omega)
    | true =>
      rw [List.filter_cons_of_pos (by
        show (decode_data_key_sorted_list_item
          (encode_data_key_sorted_list_item 1 it.1 j) == s) = true
        exact hp)]
      refine chainB_cons_of_forall (ih (j + 1) (by omega)) ?_
      intro x hx
      have hxm := List.mem_of_mem_filter hx
      have hxp := List.of_mem_filter hx
      obtain ⟨it', idx, hmem, hle, hlt, rfl⟩ := recordsFrom_mem hxm
      have hs1 : it.1 = s := by
        rw [decode_slKey] at hp
        exact beq_iff_eq.mp hp
      have hxp' : (decode_data_key_sorted_list_item
          (encode_data_key_sorted_list_item 1 it'.1 idx) == s) = true := hxp
      have hs2 : it'.1 = s := by
        rw [decode_slKey] at hxp'
        exact beq_iff_eq.mp hxp'
      show bLt (encode_data_key_sorted_list_item 1 it.1 j)
        (encode_data_key_sorted_list_item 1 it'.1 idx) = true
      rw [hs1, hs2]
      exact slKey_lt_of_seq_lt (by omega) (by omega) (by omega)

theorem recordsFrom_filter_map (s : Bytes) : ∀ (its : List (Bytes × Bytes)) (j : Nat),
    ((recordsFrom j its).filter (fun e => decode_data_key_sorted_list_item e.1 == s)).map
      (fun e => (decode_data_key_sorted_list_item e.1, e.2)) =
    its.filter (fun e => e.1 == s) := by
  intro its
  induction its with
  | nil => intro j; rfl
  | cons it rest ih =>
    intro j
    have hdec : (decode_data_key_sorted_list_item
        ((encode_data_key_sorted_list_item 1 it.1 j, it.2) : Bytes × Bytes).1 == s)
        = (it.1 == s) := by
      rw [show ((encode_data_key_sorted_list_item 1 it.1 j, it.2) : Bytes × Bytes).1
        = encode_data_key_sorted_list_item 1 it.1 j from rfl, decode_slKey]
    rw [recordsFrom, List.filter_cons, List.filter_cons, hdec]
    cases hp : (it.1 == s) with
    | false =>
      rw [if_neg (by exact Bool.false_ne_true), if_neg (by exact Bool.false_ne_true)]
      exact ih (j + 1)
    | true =>
      rw [if_pos rfl, if_pos rfl, List.map_cons, ih (j + 1)]
      congr 1
      show (decode_data_key_sorted_list_item (encode_data_key_sorted_list_item 1 it.1 j),
        it.2) = it
      rw [decode_slKey]

/-- C6 amended: when no inserted score is a proper prefix of another
(in particular for fixed-length scores), draining a sorted-list with
`sorted_list_left_pop` returns the items in non-decreasing score order, and
for each score the values come out exactly in insertion order.
The compaction divisor must be nonzero: with
`sorted_list_compact_deletes_count = 0` the source aborts on the second pop
(remainder by zero at `database.rs:634`), a path the model does not take,
so that configuration is excluded from the domain. -/
theorem c6_amended_drain_order (opts : Options) (k : Bytes) (items : List (Bytes × Bytes))
    (_hc : opts.sorted_list_compact_deletes_count ≠ 0)
    (hn : items.length ≤ 2 ^ 64) (hpf : PrefixFree items) :
    (drainAll items.length k (addAll k (emptyDB opts) items)).length = items.length ∧
    chainB (fun a b => bLe a.1 b.1)
      (drainAll items.length k (addAll k (emptyDB opts) items)) = true ∧
    ∀ s : Bytes, (drainAll items.length k (addAll k (emptyDB opts) items)).filter
        (fun e => e.1 == s) = items.filter (fun e => e.1 == s) := by
  cases items with
  | nil => exact ⟨rfl, rfl, fun s => rfl⟩
  | cons it rest =>
    have hsame : ∀ s v, sorted_list_add (emptyDB opts) k s v =
        sorted_list_add ⟨[(k, KeyMeta.mk 1 .SortedList 0 [0, 0, 0])], [], 2, opts⟩ k s v := by
      intro s v
      simp only [sorted_list_add, get_or_create_meta, get_meta, kvGet_nil, kvGet_singleton,
        KeyMeta.new, save_meta, Bool.and_false, Bool.false_and,
        if_neg (by simp : ¬ (false = true))]
      rfl
    have hfirst : addAll k (emptyDB opts) (it :: rest) =
        addAll k ⟨[(k, KeyMeta.mk 1 .SortedList 0 [0, 0, 0])], [], 2, opts⟩ (it :: rest) := by
      rw [addAll, addAll, List.foldl_cons, List.foldl_cons, hsame it.1 it.2]
    obtain ⟨dat1, hadd, hperm, hsort1, hform1⟩ :=
      addAll_go k (it :: rest) 0 [] 2 opts (by simpa using hn) rfl (by intro x hx; cases hx)
    rw [List.append_nil] at hperm
    have htotal := hfirst.trans hadd
    have hlen1 : dat1.length = (it :: rest).length := by
      rw [hperm.length_eq, recordsFrom_length]
    have hwf : SLState k ⟨[(k, KeyMeta.mk 1 .SortedList (0 + (it :: rest).length)
        [((0 + (it :: rest).length : Nat) : Int), 0, 0])], dat1, 2, opts⟩ := by
      right
      refine ⟨KeyMeta.mk 1 .SortedList (0 + (it :: rest).length)
        [((0 + (it :: rest).length : Nat) : Int), 0, 0], rfl, ?_, hsort1, ?_⟩
      · show 0 + (it :: rest).length = dat1.length
        omega
      · intro x hx
        obtain ⟨s, i, _, hxk⟩ := hform1 x hx
        exact ⟨s, i, hxk⟩
    have hdrain := drain_spec k (it :: rest).length
      ⟨[(k, KeyMeta.mk 1 .SortedList (0 + (it :: rest).length)
        [((0 + (it :: rest).length : Nat) : Int), 0, 0])], dat1, 2, opts⟩ hwf
      (show dat1.length = (it :: rest).length from hlen1)
    have hout : drainAll (it :: rest).length k (addAll k (emptyDB opts) (it :: rest)) =
        dat1.map (fun e => (decode_data_key_sorted_list_item e.1, e.2)) := by
      rw [htotal]
      exact hdrain
    rw [hout]
    refine ⟨?_, ?_, ?_⟩
    · rw [List.length_map, hlen1]
    · apply chainB_map_mem _ (fun a b => bLt a.1 b.1) _ dat1
        (by simpa [kvSorted] using hsort1)
      intro x hx y hy hxy
      have hxr := hperm.subset hx
      have hyr := hperm.subset hy
      obtain ⟨itx, ix, hmx, _, hix, rfl⟩ := recordsFrom_mem hxr
      obtain ⟨ity, iy, hmy, _, hiy, rfl⟩ := recordsFrom_mem hyr
      show bLe (decode_data_key_sorted_list_item (encode_data_key_sorted_list_item 1 itx.1 ix))
        (decode_data_key_sorted_list_item (encode_data_key_sorted_list_item 1 ity.1 iy)) = true
      rw [decode_slKey, decode_slKey]
      by_cases hss : itx.1 = ity.1
      · rw [hss]
        exact bLe_refl _
      · have h1 : itx.1.isPrefixOf ity.1 = false := by
          cases hcc : itx.1.isPrefixOf ity.1 with
          | false => rfl
          | true => exact absurd (hpf itx hmx ity hmy hcc) hss
        have h2 : ity.1.isPrefixOf itx.1 = false := by
          cases hcc : ity.1.isPrefixOf itx.1 with
          | false => rfl
          | true => exact absurd (hpf ity hmy itx hmx hcc).symm hss
        have hxy' : bLt (itx.1 ++ u64be ix) (ity.1 ++ u64be iy) = true := by
          have hkey : bLt ((encode_data_key 1) ++ (itx.1 ++ u64be ix))
              ((encode_data_key 1) ++ (ity.1 ++ u64be iy)) = true := by
            rw [← slKey_assoc, ← slKey_assoc]
            exact hxy
          rw [bLt_append_left] at hkey
          exact hkey
        rw [bLt_append_of_unrelated _ _ h1 h2] at hxy'
        exact bLe_of_bLt hxy'
    · intro s
      rw [List.filter_map]
      have hcongr : dat1.filter ((fun e : Bytes × Bytes => e.1 == s) ∘
          (fun e : Bytes × Bytes => (decode_data_key_sorted_list_item e.1, e.2))) =
          dat1.filter (fun e => decode_data_key_sorted_list_item e.1 == s) :=
        List.filter_congr (fun x _ => rfl)
      rw [hcongr]
      have hFG : dat1.filter (fun e => decode_data_key_sorted_list_item e.1 == s) =
          (recordsFrom 0 (it :: rest)).filter
            (fun e => decode_data_key_sorted_list_item e.1 == s) := by
        apply eq_of_perm_of_chainB (fun a b : Bytes × Bytes => bLt a.1 b.1)
          (fun (x y z : Bytes × Bytes) (hxy : bLt x.1 y.1 = true)
            (hyz : bLt y.1 z.1 = true) => bLt_trans hxy hyz)
          (fun x : Bytes × Bytes => bLt_irrefl x.1)
        · exact hperm.filter _
        · exact chainB_of_sublist
            (fun (x y z : Bytes × Bytes) (hxy : bLt x.1 y.1 = true)
              (hyz : bLt y.1 z.1 = true) => bLt_trans hxy hyz)
            (List.filter_sublist dat1) (by simpa [kvSorted] using hsort1)
        · exact recordsFrom_filter_sorted s (it :: rest) 0 (by simpa using hn)
      rw [hFG, recordsFrom_filter_map]

/-- Witness for the amended C6 theorem on a concrete two-item run. -/
theorem c6_amended_drain_order_witness :
    Options.default.sorted_list_compact_deletes_count ≠ 0 ∧
    ([(([0] : Bytes), ([10] : Bytes)), ([1], [20])].length ≤ 2 ^ 64) ∧
    PrefixFree [(([0] : Bytes), ([10] : Bytes)), ([1], [20])] ∧
    ((drainAll [(([0] : Bytes), ([10] : Bytes)), ([1], [20])].length [107]
        (addAll [107] (emptyDB Options.default)
          [(([0] : Bytes), ([10] : Bytes)), ([1], [20])])).length =
      [(([0] : Bytes), ([10] : Bytes)), ([1], [20])].length ∧
     chainB (fun a b => bLe a.1 b.1)
       (drainAll [(([0] : Bytes), ([10] : Bytes)), ([1], [20])].length [107]
         (addAll [107] (emptyDB Options.default)
           [(([0] : Bytes), ([10] : Bytes)), ([1], [20])])) = true ∧
     ∀ s : Bytes,
       (drainAll [(([0] : Bytes), ([10] : Bytes)), ([1], [20])].length [107]
         (addAll [107] (emptyDB Options.default)
           [(([0] : Bytes), ([10] : Bytes)), ([1], [20])])).filter
           (fun e => e.1 == s) =
         [(([0] : Bytes), ([10] : Bytes)), ([1], [20])].filter (fun e => e.1 == s)) :=
  ⟨by decide, by decide, by unfold PrefixFree; decide,
   c6_amended_drain_order Options.default [107] [([0], [10]), ([1], [20])]
     (by decide) (by decide) (by unfold PrefixFree; decide)⟩
